import Mathlib

/-!
# The `for_each` processor (`internal/impl/pure/processor_for_each.go`)

A shallow embedding of `forEachProc` and of the collaborators it calls.

* A part is a value of an arbitrary type `P`.
* A child processor acts on a world state `S` that is threaded through every
  call, so that stateful children (a `dedupe`, say) and the order of the calls
  are visible.
* A Go result pair `(batches, err)` is the pair `List (Batch P) × Option E`:
  `nil` batches is `[]`, a `nil` error is `none`.
* The `ctx` and `spans` arguments of `ProcessBatch` are never read by the
  source and are left out.
-/

set_option autoImplicit false

namespace ForEach

/-! ## Data model -/

/-- Modelled from the spec: `message.Batch` is not part of the sources at hand;
§3 describes a batch as an ordered sequence of parts, which may be empty. -/
structure Batch (P : Type) where
  parts : List P
deriving DecidableEq, Repr

/-- Modelled from the spec: `message.QuickBatch(nil)`, a fresh batch without parts. -/
def QuickBatch {P : Type} : Batch P := ⟨[]⟩

/-- Modelled from the spec: `Batch.Len`, the number of parts of a batch. -/
def Batch.Len {P : Type} (m : Batch P) : Nat := m.parts.length

/-- Modelled from the spec: `Batch.SetAll`, which replaces the parts of a batch. -/
def Batch.SetAll {P : Type} (_m : Batch P) (ps : List P) : Batch P := ⟨ps⟩

/-- Modelled from the spec: `Batch.Append`, which adds one part at the end. -/
def Batch.Append {P : Type} (m : Batch P) (p : P) : Batch P := ⟨m.parts ++ [p]⟩

/-- Walk over the parts `ps`, numbered from `i`, and run the callback on each.
The callback is a closure over local variables of the caller; `σ` is the type
of those variables. -/
def iterFrom {P σ : Type} (f : Nat → P → σ → σ) : Nat → List P → σ → σ
  | _, [], acc => acc
  | i, p :: ps, acc => iterFrom f (i + 1) ps (f i p acc)

/-- Modelled from the spec: `Batch.Iter`, which visits the parts in order
together with their index. Both callbacks of the source return `nil`, so the
walk never stops early. -/
def Batch.Iter {P σ : Type} (m : Batch P) (f : Nat → P → σ → σ) (init : σ) : σ :=
  iterFrom f 0 m.parts init

/-- A Go result pair `([]*message.Batch, error)`. -/
abbrev Ret (E P : Type) : Type := List (Batch P) × Option E

/-- The interface `processor.V1`: the three methods the source calls on a
child, each acting on the world state `S`. The timeout handed to
`WaitForClose` is a duration in nanoseconds. -/
structure V1 (S E P : Type) where
  ProcessMessage : Batch P → S → Ret E P × S
  CloseAsync : S → S
  WaitForClose : Int → S → Option E × S

/-- The type of `oprocessor.ExecuteAll`, as `ProcessBatch` calls it. -/
abbrev Executor (S E P : Type) : Type :=
  List (V1 S E P) → Batch P → S → Ret E P × S

/-! ## The chain executor -/

/-- Modelled from the spec: one round of §4.2, "apply the Stage to every batch
currently in the working set, in order, collecting each Stage's output (zero
or more batches) into a new working set"; on an error "abort immediately:
return that error and discard everything computed so far". -/
def applyStage {S E P : Type} (c : V1 S E P) : List (Batch P) → S → Ret E P × S
  | [], s => (([], none), s)
  | b :: bs, s =>
    match c.ProcessMessage b s with
    | ((_, some e), s1) => (([], some e), s1)
    | ((out, none), s1) =>
      match applyStage c bs s1 with
      | ((_, some e), s2) => (([], some e), s2)
      | ((more, none), s2) => ((out ++ more, none), s2)

/-- Modelled from the spec: the rounds of §4.2, one per stage in chain order;
"after the last Stage, the working set is the result". -/
def runStages {S E P : Type} : List (V1 S E P) → List (Batch P) → S → Ret E P × S
  | [], working, s => ((working, none), s)
  | c :: cs, working, s =>
    match applyStage c working s with
    | ((_, some e), s1) => (([], some e), s1)
    | ((next, none), s1) => runStages cs next s1

/-- Modelled from the spec: `oprocessor.ExecuteAll` is not part of the sources
at hand; §4.2 gives it as `run(chain, batch)` with the working set "initially
`[batch]`". -/
def ExecuteAll {S E P : Type} : Executor S E P :=
  fun procs msg s => runStages procs [msg] s

/-! ## `forEachProc` -/

/-- The struct `forEachProc`. -/
structure forEachProc (S E P : Type) where
  children : List (V1 S E P)

/-- Lines 65-71: `individualMsgs`. The slice is made with `msg.Len()` nil
pointers (`none`), and the walk over `msg` stores at index `i` a fresh batch
holding the `i`-th part only. -/
def individualMsgs {P : Type} (msg : Batch P) : List (Option (Batch P)) :=
  msg.Iter (fun i p slots => slots.set i (some ((QuickBatch : Batch P).SetAll [p])))
    (List.replicate msg.Len none)

/-- Lines 80-83: the walk over one result batch `m`, appending each of its
parts to `resMsg`. -/
def appendParts {P : Type} (resMsg m : Batch P) : Batch P :=
  m.Iter (fun _ p acc => acc.Append p) resMsg

/-- Lines 79-84: the loop over `resultMsgs`. -/
def appendAll {P : Type} (resMsg : Batch P) (resultMsgs : List (Batch P)) : Batch P :=
  resultMsgs.foldl appendParts resMsg

/-- Lines 87-90: what `ProcessBatch` returns once the loop has ended. -/
def finish {S E P : Type} (resMsg : Batch P) (s : S) : Ret E P × S :=
  if resMsg.Len = 0 then (([], none), s) else (([resMsg], none), s)

/-- Lines 74-90: the loop over `individualMsgs`, followed by the return. A nil
slot has no batch to hand to the children; the run is then reported as `none`
(a nil dereference). The batches that come with an error are dropped. -/
def forEachLoop {S E P : Type} (exec : Executor S E P) (p : forEachProc S E P) :
    List (Option (Batch P)) → Batch P → S → Option (Ret E P × S)
  | [], resMsg, s => some (finish resMsg s)
  | none :: _, _, _ => none
  | some tmpMsg :: rest, resMsg, s =>
    match exec p.children tmpMsg s with
    | ((_, some err), s1) => some (([], some err), s1)
    | ((resultMsgs, none), s1) => forEachLoop exec p rest (appendAll resMsg resultMsgs) s1

/-- The method `forEachProc.ProcessBatch`, with the chain executor it calls as
a parameter. -/
def forEachProc.ProcessBatchVia {S E P : Type} (exec : Executor S E P)
    (p : forEachProc S E P) (msg : Batch P) (s : S) : Option (Ret E P × S) :=
  forEachLoop exec p (individualMsgs msg) QuickBatch s

/-- The method `forEachProc.ProcessBatch`: the executor is `ExecuteAll`. -/
def forEachProc.ProcessBatch {S E P : Type} (p : forEachProc S E P) (msg : Batch P) (s : S) :
    Option (Ret E P × S) :=
  p.ProcessBatchVia ExecuteAll msg s

/-! ## Construction -/

/-- The manager `mgr`, as far as `newForEach` uses it: `mgr path pconf w` is
what `mgr.IntoPath(path...).NewProcessor(pconf)` returns in the world `w`,
either a child or an error, and the world it leaves. `bundle.NewManagement` is
not part of the sources at hand and is a parameter of the construction. -/
abbrev NewManagement (W Conf E V : Type) : Type :=
  List String → Conf → W → Except E V × W

/-- The decimal text of an index, `strconv.Itoa(i)`; the verb `%v` prints an
index the same way. -/
def Itoa (i : Nat) : String := toString i

/-- The error value `fmt.Errorf` builds for a format with the verb `%w`: the
formatted message, and the error it wraps. -/
structure wrapError (E : Type) where
  msg : String
  err : E
deriving DecidableEq, Repr

/-- Line 57: `fmt.Errorf("child processor [%v]: %w", i, err)`, where `errText`
gives the message of the wrapped error (its method `Error`). -/
def childError {E : Type} (errText : E → String) (i : Nat) (err : E) : wrapError E :=
  ⟨"child processor [" ++ Itoa i ++ "]: " ++ errText err, err⟩

/-- Lines 53-61: the loop of `newForEach` from index `i` on, with the children
built so far, followed by the return. -/
def newForEachLoop {W Conf S E P : Type} (mgr : NewManagement W Conf E (V1 S E P))
    (errText : E → String) :
    Nat → List Conf → List (V1 S E P) → W →
      (Option (forEachProc S E P) × Option (wrapError E)) × W
  | _, [], children, w => ((some ⟨children⟩, none), w)
  | i, pconf :: rest, children, w =>
    match mgr ["for_each", Itoa i] pconf w with
    | (Except.error err, w1) => ((none, some (childError errText i err)), w1)
    | (Except.ok proc, w1) => newForEachLoop mgr errText (i + 1) rest (children ++ [proc]) w1

/-- The function `newForEach`. -/
def newForEach {W Conf S E P : Type} (conf : List Conf)
    (mgr : NewManagement W Conf E (V1 S E P)) (errText : E → String) (w : W) :
    (Option (forEachProc S E P) × Option (wrapError E)) × W :=
  newForEachLoop mgr errText 0 conf [] w

/-! ## Shutdown

Instants are integers, in nanoseconds on one time line; `now s` is the reading
of the clock in the state `s`. A `context.Context` is given by its deadline,
`none` when it has none. -/

/-- The duration `time.Second`, in nanoseconds. -/
def Second : Int := 1000000000

/-- The largest `time.Duration`, `1<<63 - 1` nanoseconds. -/
def maxDuration : Int := 9223372036854775807

/-- The smallest `time.Duration`, `-1 << 63` nanoseconds. -/
def minDuration : Int := -9223372036854775808

/-- The method `Time.Sub` of the Go library: the duration `t - u`, or the
largest or smallest duration when `t - u` does not fit in a `time.Duration`
(an `int64`). -/
def Sub (t u : Int) : Int :=
  if maxDuration < t - u then maxDuration
  else if t - u < minDuration then minDuration
  else t - u

/-- The function `time.Until(deadline)`, read when the clock shows `clock`:
`deadline.Sub(time.Now())`. -/
def Until (deadline clock : Int) : Int := Sub deadline clock

/-- Lines 94-96: the first loop of `Close`, `CloseAsync` on each child in
chain order. -/
def closeAsyncAll {S E P : Type} : List (V1 S E P) → S → S
  | [], s => s
  | c :: cs, s => closeAsyncAll cs (c.CloseAsync s)

/-- Lines 97-100: the deadline of the context, or five seconds from the
reading of the clock when it has none. -/
def resolveDeadline (ctx : Option Int) (clock : Int) : Int :=
  match ctx with
  | some deadline => deadline
  | none => clock + Second * 5

/-- Lines 101-106: the second loop of `Close`, followed by the return. -/
def waitAll {S E P : Type} (now : S → Int) (deadline : Int) :
    List (V1 S E P) → S → Option E × S
  | [], s => (none, s)
  | c :: cs, s =>
    match c.WaitForClose (Until deadline (now s)) s with
    | (some err, s1) => (some err, s1)
    | (none, s1) => waitAll now deadline cs s1

/-- The method `forEachProc.Close`. -/
def forEachProc.Close {S E P : Type} (p : forEachProc S E P) (now : S → Int)
    (ctx : Option Int) (s : S) : Option E × S :=
  waitAll now (resolveDeadline ctx (now (closeAsyncAll p.children s))) p.children
    (closeAsyncAll p.children s)

/-! ## A composer as a child -/

/-- Modelled from the spec: the adapter `processor.NewV2BatchedToV1Processor`
(line 23), which turns a `forEachProc` into a child of another chain, is not
part of the sources at hand. §2 gives a stage the capability `apply(batch) →
(sequence of batches, error)` and §4.4 gives the composer `run(context, batch)
→ (batch or "no output", error)`; the child applies by running the composer.
The two close methods of the adapter are parameters. A run is never `none`
(see `processBatchVia_returns`). -/
def forEachProc.asChild {S E P : Type} (p : forEachProc S E P) (closeAsync : S → S)
    (waitForClose : Int → S → Option E × S) : V1 S E P where
  ProcessMessage b s :=
    match p.ProcessBatch b s with
    | some r => r
    | none => (([], none), s)
  CloseAsync := closeAsync
  WaitForClose := waitForClose

/-! ## Specification vocabulary -/

/-- The relation `Builds mgr i confs w vs w1`: the manager, asked for the
entries `confs` in turn under the indices `i`, `i + 1`, ... from the world `w`,
builds a child for each of them; `vs` lists the children in that order and
`w1` is the world after the last one. -/
inductive Builds {W Conf E V : Type} (mgr : NewManagement W Conf E V) :
    Nat → List Conf → W → List V → W → Prop
  | nil (i : Nat) (w : W) : Builds mgr i [] w [] w
  | cons {i : Nat} {c : Conf} {cs : List Conf} {w w1 w2 : W} {v : V} {vs : List V} :
      mgr ["for_each", Itoa i] c w = (Except.ok v, w1) → Builds mgr (i + 1) cs w1 vs w2 →
      Builds mgr i (c :: cs) w (v :: vs) w2

/-- The calls `newForEach` makes for the entries `confs` numbered from `i`:
the path and the entry of each, in order. -/
def callsFrom {Conf : Type} : Nat → List Conf → List (List String × Conf)
  | _, [] => []
  | i, c :: cs => (["for_each", Itoa i], c) :: callsFrom (i + 1) cs

/-- The property `Records mgr log`: `log` is a record of the calls made to the
manager; each call adds its path and entry at the end. -/
def Records {W Conf E V : Type} (mgr : NewManagement W Conf E V)
    (log : W → List (List String × Conf)) : Prop :=
  ∀ path c w, log (mgr path c w).2 = log w ++ [(path, c)]


/-- All parts of a sequence of batches: batch order first, then part order
within each batch. -/
def partsOf {P : Type} (bs : List (Batch P)) : List P :=
  (bs.map Batch.parts).flatten

/-- The singleton batch of one part. -/
def single {P : Type} (x : P) : Batch P := ⟨[x]⟩

/-- The relation `ItemRuns exec ch items s rs s1`: the executor, run on the
singleton batch of each item in turn from state `s`, returns no error on any
of them; `rs` lists the result batches of the items, in item order, and `s1`
is the state after the last run. -/
inductive ItemRuns {S E P : Type} (exec : Executor S E P) (ch : List (V1 S E P)) :
    List P → S → List (List (Batch P)) → S → Prop
  | nil (s : S) : ItemRuns exec ch [] s [] s
  | cons {x : P} {xs : List P} {s s1 s2 : S} {r : List (Batch P)}
      {rs : List (List (Batch P))} :
      exec ch (single x) s = ((r, none), s1) → ItemRuns exec ch xs s1 rs s2 →
      ItemRuns exec ch (x :: xs) s (r :: rs) s2

/-- The relation `FirstFailure exec ch items s e s2`: the executor succeeds on
the items before some item `x` and returns the error `e` on `x`, leaving state
`s2`. -/
def FirstFailure {S E P : Type} (exec : Executor S E P) (ch : List (V1 S E P))
    (items : List P) (s : S) (e : E) (s2 : S) : Prop :=
  ∃ (pre : List P) (x : P) (post : List P) (rs : List (List (Batch P))) (s1 : S)
    (dropped : List (Batch P)),
    items = pre ++ x :: post ∧ ItemRuns exec ch pre s rs s1 ∧
      exec ch (single x) s1 = ((dropped, some e), s2)

/-! ## Shutdown vocabulary -/

/-- What a child can see of a run of `Close`: that it was signalled, or that
it was waited on, with the timeout it was handed and the reading of the clock
at the start of the wait. Children are named by their index in the chain. -/
inductive CloseEvent where
  | signalled (child : Nat)
  | waited (child : Nat) (timeout : Int) (clock : Int)
deriving DecidableEq, Repr

/-- The child `c`, at index `k` of a chain, made to write down its close
events in a record kept next to the state. On the state it acts as `c`. -/
def traced {S E P : Type} (now : S → Int) (k : Nat) (c : V1 S E P) :
    V1 (S × List CloseEvent) E P where
  ProcessMessage b st := ((c.ProcessMessage b st.1).1, ((c.ProcessMessage b st.1).2, st.2))
  CloseAsync st := (c.CloseAsync st.1, st.2 ++ [CloseEvent.signalled k])
  WaitForClose t st :=
    ((c.WaitForClose t st.1).1,
      ((c.WaitForClose t st.1).2, st.2 ++ [CloseEvent.waited k t (now st.1)]))

/-- The children of a chain, numbered from `k`, each made to write down its
close events. -/
def tracedFrom {S E P : Type} (now : S → Int) :
    Nat → List (V1 S E P) → List (V1 (S × List CloseEvent) E P)
  | _, [] => []
  | k, c :: cs => traced now k c :: tracedFrom now (k + 1) cs

/-- The close events of a run of `Close` on the chain of `p` from state `s`. -/
def closeTrace {S E P : Type} (p : forEachProc S E P) (now : S → Int) (ctx : Option Int)
    (s : S) : List CloseEvent :=
  ((⟨tracedFrom now 0 p.children⟩ : forEachProc (S × List CloseEvent) E P).Close
    (fun st => now st.1) ctx (s, [])).2.2

/-- The children waited on, in the order of the waits. -/
def waitedChildren : List CloseEvent → List Nat
  | [] => []
  | CloseEvent.signalled _ :: evs => waitedChildren evs
  | CloseEvent.waited k _ _ :: evs => k :: waitedChildren evs

/-- The timeouts handed to the children, in the order of the waits. -/
def timeoutsOf : List CloseEvent → List Int
  | [] => []
  | CloseEvent.signalled _ :: evs => timeoutsOf evs
  | CloseEvent.waited _ t _ :: evs => t :: timeoutsOf evs

/-- The relation `WaitsOk now deadline cs s s1`: each child of `cs`, waited on
in turn from state `s` with the time left until `deadline`, returns no error;
`s1` is the state after the last wait. -/
inductive WaitsOk {S E P : Type} (now : S → Int) (deadline : Int) :
    List (V1 S E P) → S → S → Prop
  | nil (s : S) : WaitsOk now deadline [] s s
  | cons {c : V1 S E P} {cs : List (V1 S E P)} {s s1 s2 : S} :
      c.WaitForClose (Until deadline (now s)) s = (none, s1) →
      WaitsOk now deadline cs s1 s2 → WaitsOk now deadline (c :: cs) s s2

/-- The wait events of the second loop of `Close`, for the children `cs`
numbered from `k`, from state `s`: one per child waited on, up to and
including the first whose wait returns an error. -/
def waitEvents {S E P : Type} (now : S → Int) (deadline : Int) :
    Nat → List (V1 S E P) → S → List CloseEvent
  | _, [], _ => []
  | k, c :: cs, s =>
    CloseEvent.waited k (Until deadline (now s)) (now s) ::
      match c.WaitForClose (Until deadline (now s)) s with
      | (some _, _) => []
      | (none, s1) => waitEvents now deadline (k + 1) cs s1

/-- The property `PerPart c`: the child `c` never returns an error, and in
every state the parts it returns on a batch are those it returns, in that
state, on the first part alone, then on the second alone, and so on. -/
def PerPart {S E P : Type} (c : V1 S E P) : Prop :=
  ∀ b s, (c.ProcessMessage b s).1.2 = none ∧
    partsOf (c.ProcessMessage b s).1.1
      = b.parts.flatMap (fun x => partsOf (c.ProcessMessage (single x) s).1.1)

/-- The property `StateFree c`: what the child `c` returns on a batch does not
depend on the state in which it is called. -/
def StateFree {S E P : Type} (c : V1 S E P) : Prop :=
  ∀ b s s1, (c.ProcessMessage b s).1 = (c.ProcessMessage b s1).1

/-- A child without state of its own: what it returns is a function of the
batch, and it leaves the state alone. -/
def pureChild {S E P : Type} (f : Batch P → Ret E P) : V1 S E P where
  ProcessMessage b s := (f b, s)
  CloseAsync s := s
  WaitForClose _ s := (none, s)

/-! ## Example children -/

/-- A child that fans a batch out into two copies of it, and counts its calls
in the state. -/
def exDup : V1 Nat String String where
  ProcessMessage b s := (([b, b], none), s + 1)
  CloseAsync s := s
  WaitForClose _ s := (none, s)

/-- A child that drops the parts with empty content and returns the batch of
the others, an explicit empty batch when none is left. -/
def exDropEmpty : V1 Nat String String where
  ProcessMessage b s := (([⟨b.parts.filter (fun x => x != "")⟩], none), s + 1)
  CloseAsync s := s
  WaitForClose _ s := (none, s)

/-- A child that returns the error `"boom"`, next to its input, on a batch
holding the part `bad`, and passes every other batch through. -/
def exFailOn (bad : String) : V1 Nat String String where
  ProcessMessage b s :=
    if bad ∈ b.parts then (([b], some "boom"), s + 1) else (([b], none), s + 1)
  CloseAsync s := s
  WaitForClose _ s := (none, s)

/-- A child over a state that is a record of calls: it writes down every
batch it is handed and passes the batch through. -/
def exRecord : V1 (List (Batch String)) String String where
  ProcessMessage b s := (([b], none), s ++ [b])
  CloseAsync s := s
  WaitForClose _ s := (none, s)

/-- A child that does as `exRecord` on a batch of one part and returns the
error `"big"` on any other batch. -/
def exRecordOne : V1 (List (Batch String)) String String where
  ProcessMessage b s := if b.Len = 1 then (([b], none), s ++ [b]) else (([], some "big"), s)
  CloseAsync s := s
  WaitForClose _ s := (none, s)

/-- A manager whose world is the record of the calls made to it. It builds
`exDup` for every entry but `"bad"`, for which it returns the error
`"unknown"`. -/
def exMgr : NewManagement (List (List String × String)) String String (V1 Nat String String) :=
  fun path c w => (if c = "bad" then Except.error "unknown" else Except.ok exDup, w ++ [(path, c)])

/-- A child that is closed as soon as it is waited on. The state is the
reading of the clock. -/
def exClosed : V1 Int String String where
  ProcessMessage b s := (([b], none), s)
  CloseAsync s := s
  WaitForClose _ s := (none, s)

/-- A child that never closes: a wait with timeout `t` lasts `t` (no time when
`t` is negative) and returns the error `"timeout"`. -/
def exStuck : V1 Int String String where
  ProcessMessage b s := (([b], none), s)
  CloseAsync s := s
  WaitForClose t s := (some "timeout", s + max t 0)

/-- A child whose wait lasts ten seconds whatever the timeout, and returns the
error `"busy"`. -/
def exLate : V1 Int String String where
  ProcessMessage b s := (([b], none), s)
  CloseAsync s := s
  WaitForClose _ s := (some "busy", s + Second * 10)

/-- A child that never closes, as `exStuck`, and whose `CloseAsync` lasts one
second. -/
def exSlowSignal : V1 Int String String where
  ProcessMessage b s := (([b], none), s)
  CloseAsync s := s + Second
  WaitForClose t s := (some "timeout", s + max t 0)

/-- A child that takes one second to close and is then closed. -/
def exOneSecond : V1 Int String String where
  ProcessMessage b s := (([b], none), s)
  CloseAsync s := s
  WaitForClose _ s := (none, s + Second)

/-- A child without state that returns one batch, with each part of its
input twice. -/
def exTwice : V1 Unit String String :=
  pureChild (fun b => ([⟨b.parts.flatMap (fun x => [x, x])⟩], none))

/-- A child without state that returns one batch, the input without its parts
of empty content. -/
def exNonEmpty : V1 Unit String String :=
  pureChild (fun b => ([⟨b.parts.filter (fun x => x != "")⟩], none))

/-- A child without state that returns the error `"boom"` on a batch holding
the part `bad` and passes every other batch through. -/
def exPureFailOn (bad : String) : V1 Unit String String :=
  pureChild (fun b => if bad ∈ b.parts then ([], some "boom") else ([b], none))

/-- A child that counts its calls in the state and returns its input with the
count of the earlier calls written after the content of each part. -/
def exCall : V1 Nat String String where
  ProcessMessage b s := (([⟨b.parts.map (fun x => x ++ toString s)⟩], none), s + 1)
  CloseAsync s := s
  WaitForClose _ s := (none, s)

/-! ## Lemmas on the batch helpers -/

theorem iterFrom_set_slots {P : Type} (ps : List P) (pre : List (Option (Batch P))) :
    iterFrom (fun i p slots => slots.set i (some ((QuickBatch : Batch P).SetAll [p])))
      pre.length ps (pre ++ List.replicate ps.length none)
      = pre ++ ps.map (fun p => some (single p)) := by
  induction ps generalizing pre with
  | nil => simp [iterFrom]
  | cons x xs ih =>
    have h := ih (pre ++ [some (single x)])
    simp only [List.length_append, List.length_singleton, List.append_assoc,
      List.singleton_append] at h
    simp only [iterFrom, List.length_cons, List.replicate_succ, List.map_cons]
    rw [List.set_append_right _ _ (Nat.le_refl _)]
    simpa [Batch.SetAll, single] using h

theorem individualMsgs_eq_map {P : Type} (msg : Batch P) :
    individualMsgs msg = msg.parts.map (fun p => some (single p)) := by
  have h := iterFrom_set_slots msg.parts []
  simpa [individualMsgs, Batch.Iter, Batch.Len] using h

theorem iterFrom_append_parts {P : Type} (ps : List P) (i : Nat) (acc : Batch P) :
    iterFrom (fun _ p (a : Batch P) => a.Append p) i ps acc = ⟨acc.parts ++ ps⟩ := by
  induction ps generalizing i acc with
  | nil => simp [iterFrom]
  | cons x xs ih =>
    have h := ih (i + 1) (acc.Append x)
    simp only [iterFrom]
    rw [h]
    simp [Batch.Append]

theorem appendParts_parts {P : Type} (resMsg m : Batch P) :
    appendParts resMsg m = ⟨resMsg.parts ++ m.parts⟩ := by
  simp [appendParts, Batch.Iter, iterFrom_append_parts]

theorem appendAll_parts {P : Type} (ms : List (Batch P)) (resMsg : Batch P) :
    appendAll resMsg ms = ⟨resMsg.parts ++ partsOf ms⟩ := by
  induction ms generalizing resMsg with
  | nil => simp [appendAll, partsOf]
  | cons m ms ih =>
    have h := ih (appendParts resMsg m)
    simp only [appendAll] at h
    simp only [appendAll, List.foldl_cons]
    rw [h]
    simp [appendParts_parts, partsOf]

theorem partsOf_append {P : Type} (a b : List (Batch P)) :
    partsOf (a ++ b) = partsOf a ++ partsOf b := by
  simp [partsOf]

/-! ## The loop of `ProcessBatch` -/

theorem finish_err {S E P : Type} (resMsg : Batch P) (s : S) :
    (finish resMsg s : Ret E P × S).1.2 = none := by
  unfold finish
  split <;> rfl

theorem finish_state {S E P : Type} (resMsg : Batch P) (s : S) :
    (finish resMsg s : Ret E P × S).2 = s := by
  unfold finish
  split <;> rfl

theorem finish_eq {S E P : Type} (resMsg : Batch P) (s : S) :
    (finish resMsg s : Ret E P × S) = (((finish resMsg s : Ret E P × S).1.1, none), s) := by
  unfold finish
  split <;> rfl

theorem partsOf_finish {S E P : Type} (resMsg : Batch P) (s : S) :
    partsOf (finish resMsg s : Ret E P × S).1.1 = resMsg.parts := by
  unfold finish
  split
  · rename_i h
    have : resMsg.parts = [] := List.length_eq_zero.mp h
    simp [partsOf, this]
  · simp [partsOf]

theorem forEachLoop_of_itemRuns {S E P : Type} (exec : Executor S E P) (p : forEachProc S E P)
    {items : List P} {s s1 : S} {rs : List (List (Batch P))}
    (h : ItemRuns exec p.children items s rs s1) (acc : Batch P) :
    forEachLoop exec p (items.map (fun x => some (single x))) acc s
      = some (finish ⟨acc.parts ++ partsOf rs.flatten⟩ s1) := by
  induction h generalizing acc with
  | nil s => simp [forEachLoop, partsOf]
  | cons hx _ ih =>
    simp only [List.map_cons, forEachLoop, hx]
    rw [ih]
    simp [appendAll_parts, partsOf_append, List.append_assoc]

theorem forEachLoop_of_firstFailure {S E P : Type} (exec : Executor S E P)
    (p : forEachProc S E P) {items : List P} {s s2 : S} {e : E}
    (h : FirstFailure exec p.children items s e s2) (acc : Batch P) :
    forEachLoop exec p (items.map (fun x => some (single x))) acc s
      = some (([], some e), s2) := by
  obtain ⟨pre, x, post, rs, s1, dropped, hitems, hruns, hx⟩ := h
  subst hitems
  induction hruns generalizing acc with
  | nil s => simp [forEachLoop, hx]
  | cons hy _ ih =>
    simp only [List.cons_append, List.map_cons, forEachLoop, hy]
    exact ih _ hx

theorem itemRuns_or_firstFailure {S E P : Type} (exec : Executor S E P)
    (ch : List (V1 S E P)) (items : List P) (s : S) :
    (∃ rs s1, ItemRuns exec ch items s rs s1) ∨ (∃ e s2, FirstFailure exec ch items s e s2) := by
  induction items generalizing s with
  | nil => exact Or.inl ⟨[], s, ItemRuns.nil s⟩
  | cons x xs ih =>
    rcases hx : exec ch (single x) s with ⟨⟨r, err⟩, s1⟩
    cases err with
    | some e => exact Or.inr ⟨e, s1, [], x, xs, [], s, r, rfl, ItemRuns.nil s, hx⟩
    | none =>
      rcases ih s1 with ⟨rs, s2, hr⟩ | ⟨e, s2, pre, y, post, rs, s3, d, hxs, hr, hy⟩
      · exact Or.inl ⟨r :: rs, s2, ItemRuns.cons hx hr⟩
      · exact Or.inr ⟨e, s2, x :: pre, y, post, r :: rs, s3, d, by simp [hxs],
          ItemRuns.cons hx hr, hy⟩

theorem processBatchVia_of_itemRuns {S E P : Type} (exec : Executor S E P)
    (p : forEachProc S E P) (msg : Batch P) {s s1 : S} {rs : List (List (Batch P))}
    (h : ItemRuns exec p.children msg.parts s rs s1) :
    p.ProcessBatchVia exec msg s = some (finish ⟨partsOf rs.flatten⟩ s1) := by
  unfold forEachProc.ProcessBatchVia
  rw [individualMsgs_eq_map, forEachLoop_of_itemRuns exec p h]
  simp [QuickBatch]

theorem processBatchVia_of_firstFailure {S E P : Type} (exec : Executor S E P)
    (p : forEachProc S E P) (msg : Batch P) {s s2 : S} {e : E}
    (h : FirstFailure exec p.children msg.parts s e s2) :
    p.ProcessBatchVia exec msg s = some (([], some e), s2) := by
  unfold forEachProc.ProcessBatchVia
  rw [individualMsgs_eq_map, forEachLoop_of_firstFailure exec p h]

theorem partsOf_flatten {P : Type} (rs : List (List (Batch P))) :
    partsOf rs.flatten = (rs.map partsOf).flatten := by
  induction rs with
  | nil => rfl
  | cons r rs ih => simp [partsOf_append, ih]

theorem processBatchVia_success_inv {S E P : Type} (exec : Executor S E P)
    (p : forEachProc S E P) (msg : Batch P) {s s1 : S} {out : List (Batch P)}
    (h : p.ProcessBatchVia exec msg s = some ((out, none), s1)) :
    ∃ rs, ItemRuns exec p.children msg.parts s rs s1 ∧
      ((out, none), s1) = (finish ⟨partsOf rs.flatten⟩ s1 : Ret E P × S) := by
  rcases itemRuns_or_firstFailure exec p.children msg.parts s with ⟨rs, s3, hr⟩ | ⟨e, s2, hf⟩
  · have h2 := processBatchVia_of_itemRuns exec p msg hr
    rw [h] at h2
    have h3 := Option.some.inj h2
    have hs : s1 = s3 := by
      have := congrArg Prod.snd h3
      simpa [finish_state] using this
    subst hs
    exact ⟨rs, hr, h3⟩
  · have h2 := processBatchVia_of_firstFailure exec p msg hf
    rw [h] at h2
    simp at h2

theorem length_partsOf {P : Type} (bs : List (Batch P)) :
    (partsOf bs).length = (bs.map Batch.Len).sum := by
  induction bs with
  | nil => rfl
  | cons b bs ih =>
    have h : partsOf (b :: bs) = b.parts ++ partsOf bs := by simp [partsOf]
    rw [h, List.length_append, ih]
    simp [Batch.Len]

theorem itemRuns_empty_chain {S E P : Type} (items : List P) (s : S) :
    ItemRuns (ExecuteAll : Executor S E P) [] items s (items.map (fun x => [single x])) s := by
  induction items with
  | nil => exact ItemRuns.nil s
  | cons x xs ih => exact ItemRuns.cons rfl ih

theorem partsOf_flatten_singles {P : Type} (items : List P) :
    partsOf (items.map (fun x => [single x])).flatten = items := by
  induction items with
  | nil => rfl
  | cons x xs ih =>
    have h : partsOf (single x :: (xs.map (fun x => [single x])).flatten)
        = x :: partsOf (xs.map (fun x => [single x])).flatten := by
      simp [partsOf, single]
    simpa [h] using ih

/-! ## Calls made by the executor -/

theorem applyStage_keeps {S E P L : Type} (d : V1 S E P) (log : S → L)
    (hd : ∀ b s, log (d.ProcessMessage b s).2 = log s) (working : List (Batch P)) (s : S) :
    log (applyStage d working s).2 = log s := by
  induction working generalizing s with
  | nil => rfl
  | cons b bs ih =>
    have hb := hd b s
    simp only [applyStage]
    rcases hpm : d.ProcessMessage b s with ⟨⟨out, err⟩, s1⟩
    rw [hpm] at hb
    cases err with
    | some e => simpa using hb
    | none =>
      have hi := ih s1
      simp only at hb ⊢
      rcases hrest : applyStage d bs s1 with ⟨⟨more, err2⟩, s2⟩
      rw [hrest] at hi
      cases err2 with
      | some e => simp only; rw [← hb]; exact hi
      | none => simp only; rw [← hb]; exact hi

theorem runStages_keeps {S E P L : Type} (ch : List (V1 S E P)) (log : S → L)
    (hch : ∀ d ∈ ch, ∀ b s, log (d.ProcessMessage b s).2 = log s)
    (working : List (Batch P)) (s : S) :
    log (runStages ch working s).2 = log s := by
  induction ch generalizing working s with
  | nil => rfl
  | cons d ds ih =>
    have hd := applyStage_keeps d log (hch d (List.mem_cons_self d ds)) working s
    simp only [runStages]
    rcases happ : applyStage d working s with ⟨⟨next, err⟩, s1⟩
    rw [happ] at hd
    cases err with
    | some e => simpa using hd
    | none =>
      simp only
      rw [ih (fun d hmem => hch d (List.mem_cons_of_mem _ hmem)) next s1]
      exact hd

theorem executeAll_records_first {S E P : Type} (c : V1 S E P) (rest : List (V1 S E P))
    (log : S → List (Batch P))
    (hc : ∀ b s, log (c.ProcessMessage b s).2 = log s ++ [b])
    (hrest : ∀ d ∈ rest, ∀ b s, log (d.ProcessMessage b s).2 = log s)
    (b : Batch P) (s : S) :
    log (ExecuteAll (c :: rest) b s).2 = log s ++ [b] := by
  have hb := hc b s
  simp only [ExecuteAll, runStages, applyStage]
  rcases hpm : c.ProcessMessage b s with ⟨⟨out, err⟩, s1⟩
  rw [hpm] at hb
  cases err with
  | some e => simpa using hb
  | none =>
    simp only
    rw [runStages_keeps rest log hrest]
    exact hb

theorem itemRuns_records {S E P : Type} (exec : Executor S E P) (ch : List (V1 S E P))
    (log : S → List (Batch P))
    (hexec : ∀ b s, log (exec ch b s).2 = log s ++ [b])
    {items : List P} {s s1 : S} {rs : List (List (Batch P))}
    (h : ItemRuns exec ch items s rs s1) :
    log s1 = log s ++ items.map single := by
  induction h with
  | nil s => simp
  | @cons x xs s0 s1 s2 r rs hx _ ih =>
    have h1 := hexec (single x) s0
    rw [hx] at h1
    rw [ih, h1]
    simp

theorem forEachLoop_congr {S E P : Type} (exec1 exec2 : Executor S E P)
    (p1 p2 : forEachProc S E P)
    (h : ∀ x s, exec1 p1.children (single x) s = exec2 p2.children (single x) s)
    (items : List P) (acc : Batch P) (s : S) :
    forEachLoop exec1 p1 (items.map (fun x => some (single x))) acc s
      = forEachLoop exec2 p2 (items.map (fun x => some (single x))) acc s := by
  induction items generalizing acc s with
  | nil => rfl
  | cons x xs ih =>
    simp only [List.map_cons, forEachLoop, h x s]
    rcases exec2 p2.children (single x) s with ⟨⟨r, err⟩, s1⟩
    cases err with
    | some e => rfl
    | none => exact ih _ _

theorem executeAll_one_stage {S E P : Type} (c : V1 S E P) (b : Batch P) (s : S) :
    ExecuteAll [c] b s =
      match c.ProcessMessage b s with
      | ((_, some e), s1) => (([], some e), s1)
      | ((out, none), s1) => ((out, none), s1) := by
  simp only [ExecuteAll, runStages, applyStage]
  rcases c.ProcessMessage b s with ⟨⟨out, err⟩, s1⟩
  cases err with
  | some e => rfl
  | none => simp [runStages]

/-! ## Children given by what they do to one part -/

theorem itemRuns_of_per_part {S E P : Type} (d : V1 S E P) (g : P → List P)
    (hd : ∀ x s, ∃ r s1, d.ProcessMessage (single x) s = ((r, none), s1) ∧ partsOf r = g x)
    (items : List P) (s : S) :
    ∃ rs s1, ItemRuns ExecuteAll [d] items s rs s1 ∧
      partsOf rs.flatten = items.flatMap g := by
  induction items generalizing s with
  | nil => exact ⟨[], s, ItemRuns.nil s, rfl⟩
  | cons x xs ih =>
    obtain ⟨r, s1, hpm, hr⟩ := hd x s
    obtain ⟨rs, s2, hruns, hrs⟩ := ih s1
    have hx : ExecuteAll [d] (single x) s = ((r, none), s1) := by
      rw [executeAll_one_stage, hpm]
    refine ⟨r :: rs, s2, ItemRuns.cons hx hruns, ?_⟩
    simp [partsOf_append, hr, hrs]

theorem flatMap_keep_eq_filter {P : Type} (keep : P → Bool) (items : List P) :
    items.flatMap (fun x => if keep x then [x] else []) = items.filter keep := by
  induction items with
  | nil => rfl
  | cons x xs ih =>
    cases hk : keep x <;> simp [List.filter, hk, ih]

theorem finish_nonempty {S E P : Type} (resMsg : Batch P) (s : S) (h : resMsg.parts ≠ []) :
    (finish resMsg s : Ret E P × S) = (([resMsg], none), s) := by
  unfold finish
  have : resMsg.Len ≠ 0 := fun hz => h (List.length_eq_zero.mp hz)
  simp [this]

/-! ## The loop of `newForEach` -/

theorem newForEachLoop_cases {W Conf S E P : Type} (mgr : NewManagement W Conf E (V1 S E P))
    (errText : E → String) (confs : List Conf) (i : Nat) (acc : List (V1 S E P)) (w : W) :
    (∃ vs w1, Builds mgr i confs w vs w1 ∧ vs.length = confs.length ∧
        newForEachLoop mgr errText i confs acc w = ((some ⟨acc ++ vs⟩, none), w1) ∧
        ∀ log, Records mgr log → log w1 = log w ++ callsFrom i confs) ∨
    (∃ pre c post vs w1 e w2, confs = pre ++ c :: post ∧ Builds mgr i pre w vs w1 ∧
        mgr ["for_each", Itoa (i + pre.length)] c w1 = (Except.error e, w2) ∧
        newForEachLoop mgr errText i confs acc w
          = ((none, some (childError errText (i + pre.length) e)), w2) ∧
        ∀ log, Records mgr log → log w2 = log w ++ callsFrom i (pre ++ [c])) := by
  induction confs generalizing i acc w with
  | nil =>
    exact Or.inl ⟨[], w, Builds.nil i w, rfl, by simp [newForEachLoop], by
      intro log _; simp [callsFrom]⟩
  | cons c cs ih =>
    rcases hc : mgr ["for_each", Itoa i] c w with ⟨res, w1⟩
    have hrec : ∀ log, Records mgr log → log w1 = log w ++ [(["for_each", Itoa i], c)] := by
      intro log hlog
      have := hlog ["for_each", Itoa i] c w
      rw [hc] at this
      exact this
    cases res with
    | error e =>
      refine Or.inr ⟨[], c, cs, [], w, e, w1, rfl, Builds.nil i w, by simpa using hc, ?_, ?_⟩
      · simp [newForEachLoop, hc]
      · intro log hlog
        simp [callsFrom, hrec log hlog]
    | ok v =>
      rcases ih (i + 1) (acc ++ [v]) w1 with
        ⟨vs, w2, hb, hlen, hloop, hlogs⟩ | ⟨pre, x, post, vs, w2, e, w3, hcs, hb, hx, hloop, hlogs⟩
      · refine Or.inl ⟨v :: vs, w2, Builds.cons hc hb, by simp [hlen], ?_, ?_⟩
        · simp [newForEachLoop, hc, hloop]
        · intro log hlog
          simp [callsFrom, hlogs log hlog, hrec log hlog]
      · have hidx : i + 1 + pre.length = i + (c :: pre).length := by
          simp only [List.length_cons]; omega
        rw [hidx] at hx hloop
        refine Or.inr ⟨c :: pre, x, post, v :: vs, w2, e, w3, by simp [hcs],
          Builds.cons hc hb, hx, ?_, ?_⟩
        · simp only [newForEachLoop, hc]
          exact hloop
        · intro log hlog
          simp [callsFrom, hlogs log hlog, hrec log hlog]

theorem processBatchVia_returns {S E P : Type} (exec : Executor S E P)
    (p : forEachProc S E P) (msg : Batch P) (s : S) :
    ∃ r, p.ProcessBatchVia exec msg s = some r := by
  rcases itemRuns_or_firstFailure exec p.children msg.parts s with ⟨rs, s1, hr⟩ | ⟨e, s2, hf⟩
  · exact ⟨_, processBatchVia_of_itemRuns exec p msg hr⟩
  · exact ⟨_, processBatchVia_of_firstFailure exec p msg hf⟩

/-! ## The loops of `Close` -/

theorem closeAsyncAll_traced {S E P : Type} (now : S → Int) (cs : List (V1 S E P)) (k : Nat)
    (s : S) (log : List CloseEvent) :
    closeAsyncAll (tracedFrom now k cs) (s, log)
      = (closeAsyncAll cs s, log ++ (List.range' k cs.length).map CloseEvent.signalled) := by
  induction cs generalizing k s log with
  | nil => simp [closeAsyncAll, tracedFrom]
  | cons c cs ih =>
    simp only [tracedFrom, closeAsyncAll, traced, List.length_cons]
    rw [ih]
    simp [List.range'_succ]

theorem waitAll_traced {S E P : Type} (now : S → Int) (deadline : Int)
    (cs : List (V1 S E P)) (k : Nat) (s : S) (log : List CloseEvent) :
    waitAll (fun st : S × List CloseEvent => now st.1) deadline (tracedFrom now k cs) (s, log)
      = ((waitAll now deadline cs s).1,
          ((waitAll now deadline cs s).2, log ++ waitEvents now deadline k cs s)) := by
  induction cs generalizing k s log with
  | nil => simp [waitAll, tracedFrom, waitEvents]
  | cons c cs ih =>
    simp only [tracedFrom, waitAll, traced, waitEvents]
    rcases hw : c.WaitForClose (Until deadline (now s)) s with ⟨err, s1⟩
    cases err with
    | some e => simp
    | none =>
      simp only
      rw [ih]
      simp

theorem close_traced {S E P : Type} (p : forEachProc S E P) (now : S → Int)
    (ctx : Option Int) (s : S) :
    (⟨tracedFrom now 0 p.children⟩ : forEachProc (S × List CloseEvent) E P).Close
        (fun st => now st.1) ctx (s, [])
      = ((p.Close now ctx s).1, ((p.Close now ctx s).2,
          (List.range p.children.length).map CloseEvent.signalled ++
            waitEvents now (resolveDeadline ctx (now (closeAsyncAll p.children s))) 0
              p.children (closeAsyncAll p.children s))) := by
  simp only [forEachProc.Close]
  rw [closeAsyncAll_traced, waitAll_traced]
  simp [List.range_eq_range']

theorem closeTrace_eq {S E P : Type} (p : forEachProc S E P) (now : S → Int)
    (ctx : Option Int) (s : S) :
    closeTrace p now ctx s
      = (List.range p.children.length).map CloseEvent.signalled ++
          waitEvents now (resolveDeadline ctx (now (closeAsyncAll p.children s))) 0
            p.children (closeAsyncAll p.children s) := by
  unfold closeTrace
  rw [close_traced]

theorem waitedChildren_append (a b : List CloseEvent) :
    waitedChildren (a ++ b) = waitedChildren a ++ waitedChildren b := by
  induction a with
  | nil => rfl
  | cons ev evs ih => cases ev <;> simp [waitedChildren, ih]

theorem waitedChildren_signalled (l : List Nat) :
    waitedChildren (l.map CloseEvent.signalled) = [] := by
  induction l with
  | nil => rfl
  | cons k ks ih => simpa [waitedChildren] using ih

theorem timeoutsOf_append (a b : List CloseEvent) :
    timeoutsOf (a ++ b) = timeoutsOf a ++ timeoutsOf b := by
  induction a with
  | nil => rfl
  | cons ev evs ih => cases ev <;> simp [timeoutsOf, ih]

theorem timeoutsOf_signalled (l : List Nat) :
    timeoutsOf (l.map CloseEvent.signalled) = [] := by
  induction l with
  | nil => rfl
  | cons k ks ih => simpa [timeoutsOf] using ih

theorem waitAll_cases {S E P : Type} (now : S → Int) (deadline : Int)
    (cs : List (V1 S E P)) (k : Nat) (s : S) :
    (∃ s2, WaitsOk now deadline cs s s2 ∧ waitAll now deadline cs s = (none, s2) ∧
        waitedChildren (waitEvents now deadline k cs s) = List.range' k cs.length) ∨
    (∃ pre c post s1 e s2, cs = pre ++ c :: post ∧ WaitsOk now deadline pre s s1 ∧
        c.WaitForClose (Until deadline (now s1)) s1 = (some e, s2) ∧
        waitAll now deadline cs s = (some e, s2) ∧
        waitedChildren (waitEvents now deadline k cs s) = List.range' k (pre.length + 1)) := by
  induction cs generalizing k s with
  | nil => exact Or.inl ⟨s, WaitsOk.nil s, rfl, rfl⟩
  | cons c cs ih =>
    rcases hw : c.WaitForClose (Until deadline (now s)) s with ⟨err, s1⟩
    cases err with
    | some e =>
      refine Or.inr ⟨[], c, cs, s, e, s1, rfl, WaitsOk.nil s, hw, ?_, ?_⟩
      · simp [waitAll, hw]
      · simp [waitEvents, hw, waitedChildren]
    | none =>
      rcases ih (k + 1) s1 with ⟨s2, hok, hall, hev⟩ | ⟨pre, d, post, s2, e, s3, hcs, hok, hd, hall, hev⟩
      · refine Or.inl ⟨s2, WaitsOk.cons hw hok, ?_, ?_⟩
        · simp [waitAll, hw, hall]
        · simp [waitEvents, hw, waitedChildren, hev, List.range'_succ]
      · refine Or.inr ⟨c :: pre, d, post, s2, e, s3, by simp [hcs], WaitsOk.cons hw hok, hd, ?_, ?_⟩
        · simp [waitAll, hw, hall]
        · simp [waitEvents, hw, waitedChildren, hev, List.range'_succ]

theorem waitAll_of_waitsOk {S E P : Type} (now : S → Int) (deadline : Int)
    {cs : List (V1 S E P)} {s s2 : S} (h : WaitsOk now deadline cs s s2) :
    waitAll now deadline cs s = (none, s2) := by
  induction h with
  | nil s => rfl
  | cons hw _ ih => simp [waitAll, hw, ih]

/-! ## Timeouts -/

theorem Sub_antitone (deadline : Int) {u v : Int} (h : u ≤ v) :
    Sub deadline v ≤ Sub deadline u := by
  unfold Sub maxDuration minDuration
  split_ifs <;> omega

theorem Sub_in_range (t u : Int) (hlo : minDuration ≤ t - u) (hhi : t - u ≤ maxDuration) :
    Sub t u = t - u := by
  unfold Sub
  rw [if_neg (not_lt.mpr hhi), if_neg (not_lt.mpr hlo)]

theorem waited_mem_waitEvents {S E P : Type} (now : S → Int) (deadline : Int)
    (cs : List (V1 S E P)) (k : Nat) (s : S) (j : Nat) (t clock : Int)
    (h : CloseEvent.waited j t clock ∈ waitEvents now deadline k cs s) :
    t = Sub deadline clock := by
  induction cs generalizing k s with
  | nil => simp [waitEvents] at h
  | cons c cs ih =>
    simp only [waitEvents, List.mem_cons] at h
    rcases h with h | h
    · injection h with _ ht hc
      rw [ht, hc]
      rfl
    · rcases hw : c.WaitForClose (Until deadline (now s)) s with ⟨err, s1⟩
      rw [hw] at h
      cases err with
      | some e => simp at h
      | none => exact ih (k + 1) s1 h

theorem waited_mem_closeTrace {S E P : Type} (p : forEachProc S E P) (now : S → Int)
    (ctx : Option Int) (s : S) (j : Nat) (t clock : Int)
    (h : CloseEvent.waited j t clock ∈ closeTrace p now ctx s) :
    CloseEvent.waited j t clock ∈
      waitEvents now (resolveDeadline ctx (now (closeAsyncAll p.children s))) 0 p.children
        (closeAsyncAll p.children s) := by
  rw [closeTrace_eq, List.mem_append] at h
  rcases h with h | h
  · simp at h
  · exact h

theorem timeoutsOf_waitEvents_le {S E P : Type} (now : S → Int) (deadline : Int)
    (cs : List (V1 S E P))
    (hmono : ∀ c ∈ cs, ∀ t s, now s ≤ now (c.WaitForClose t s).2) (k : Nat) (s : S) :
    ∀ t ∈ timeoutsOf (waitEvents now deadline k cs s), t ≤ Until deadline (now s) := by
  induction cs generalizing k s with
  | nil => simp [waitEvents, timeoutsOf]
  | cons c cs ih =>
    intro t ht
    simp only [waitEvents, timeoutsOf, List.mem_cons] at ht
    rcases ht with ht | ht
    · rw [ht]
    · have hstep := hmono c (List.mem_cons_self c cs) (Until deadline (now s)) s
      rcases hw : c.WaitForClose (Until deadline (now s)) s with ⟨err, s1⟩
      rw [hw] at ht hstep
      cases err with
      | some e => simp [timeoutsOf] at ht
      | none =>
        have h1 := ih (fun d hd => hmono d (List.mem_cons_of_mem _ hd)) (k + 1) s1 t ht
        exact le_trans h1 (Sub_antitone deadline hstep)

theorem timeoutsOf_waitEvents_pairwise {S E P : Type} (now : S → Int) (deadline : Int)
    (cs : List (V1 S E P))
    (hmono : ∀ c ∈ cs, ∀ t s, now s ≤ now (c.WaitForClose t s).2) (k : Nat) (s : S) :
    List.Pairwise (fun a b => b ≤ a) (timeoutsOf (waitEvents now deadline k cs s)) := by
  induction cs generalizing k s with
  | nil => simp [waitEvents, timeoutsOf]
  | cons c cs ih =>
    have hrest : ∀ d ∈ cs, ∀ t s, now s ≤ now (d.WaitForClose t s).2 :=
      fun d hd => hmono d (List.mem_cons_of_mem _ hd)
    have hstep := hmono c (List.mem_cons_self c cs) (Until deadline (now s)) s
    simp only [waitEvents, timeoutsOf, List.pairwise_cons]
    rcases hw : c.WaitForClose (Until deadline (now s)) s with ⟨err, s1⟩
    rw [hw] at hstep
    cases err with
    | some e => simp [timeoutsOf]
    | none =>
      refine ⟨?_, ih hrest (k + 1) s1⟩
      intro t ht
      exact le_trans (timeoutsOf_waitEvents_le now deadline cs hrest (k + 1) s1 t ht)
        (Sub_antitone deadline hstep)

theorem Sub_le_time_left (deadline u : Int) (h : u ≤ deadline) :
    max (Sub deadline u) 0 ≤ deadline - u := by
  unfold Sub maxDuration minDuration
  split_ifs <;> omega

theorem waitAll_within {S E P : Type} (now : S → Int) (deadline : Int)
    (cs : List (V1 S E P))
    (hwithin : ∀ c ∈ cs, ∀ t s, now (c.WaitForClose t s).2 ≤ now s + max t 0)
    (s : S) (hs : now s ≤ deadline) :
    now (waitAll now deadline cs s).2 ≤ deadline := by
  induction cs generalizing s with
  | nil => exact hs
  | cons c cs ih =>
    have hstep := hwithin c (List.mem_cons_self c cs) (Until deadline (now s)) s
    have hleft := Sub_le_time_left deadline (now s) hs
    simp only [waitAll]
    rcases hw : c.WaitForClose (Until deadline (now s)) s with ⟨err, s1⟩
    rw [hw] at hstep
    have hs1 : now s1 ≤ deadline := by
      have : now s1 ≤ now s + max (Sub deadline (now s)) 0 := hstep
      omega
    cases err with
    | some e => exact hs1
    | none => exact ih (fun d hd => hwithin d (List.mem_cons_of_mem _ hd)) s1 hs1

theorem waitAll_fails_of_stuck {S E P : Type} (now : S → Int) (deadline : Int)
    (cs : List (V1 S E P)) (stuck : V1 S E P) (hmem : stuck ∈ cs)
    (hstuck : ∀ t s, ∃ e, (stuck.WaitForClose t s).1 = some e) (s : S) :
    ∃ e, (waitAll now deadline cs s).1 = some e := by
  induction cs generalizing s with
  | nil => simp at hmem
  | cons c cs ih =>
    simp only [waitAll]
    rcases hw : c.WaitForClose (Until deadline (now s)) s with ⟨err, s1⟩
    cases err with
    | some e => exact ⟨e, rfl⟩
    | none =>
      rcases List.mem_cons.mp hmem with hc | hc
      · obtain ⟨e, he⟩ := hstuck (Until deadline (now s)) s
        rw [hc, hw] at he
        simp at he
      · exact ih hc s1

theorem waitAll_error_kind {S E P : Type} (now : S → Int) (deadline : Int)
    (cs : List (V1 S E P)) (isTimeout : E → Prop)
    (hkind : ∀ c ∈ cs, ∀ t s e, (c.WaitForClose t s).1 = some e → isTimeout e)
    (s : S) (e : E) (h : (waitAll now deadline cs s).1 = some e) : isTimeout e := by
  induction cs generalizing s with
  | nil => simp [waitAll] at h
  | cons c cs ih =>
    have hc := hkind c (List.mem_cons_self c cs) (Until deadline (now s)) s
    simp only [waitAll] at h
    rcases hw : c.WaitForClose (Until deadline (now s)) s with ⟨err, s1⟩
    rw [hw] at h hc
    cases err with
    | some e1 =>
      simp only [Option.some.injEq] at h
      exact hc e (by rw [h])
    | none => exact ih (fun d hd => hkind d (List.mem_cons_of_mem _ hd)) s1 h

/-! ## Chains of per-message children -/

theorem itemRuns_of_exec_parts {S E P : Type} (exec : Executor S E P)
    (ch : List (V1 S E P)) (g : P → List P)
    (h : ∀ x s, ∃ r s1, exec ch (single x) s = ((r, none), s1) ∧ partsOf r = g x)
    (items : List P) (s : S) :
    ∃ rs s1, ItemRuns exec ch items s rs s1 ∧ partsOf rs.flatten = items.flatMap g := by
  induction items generalizing s with
  | nil => exact ⟨[], s, ItemRuns.nil s, rfl⟩
  | cons x xs ih =>
    obtain ⟨r, s1, hx, hr⟩ := h x s
    obtain ⟨rs, s2, hruns, hrs⟩ := ih s1
    refine ⟨r :: rs, s2, ItemRuns.cons hx hruns, ?_⟩
    simp [partsOf_append, hr, hrs]

theorem applyStage_of_function {S E P : Type} (c : V1 S E P) (f : Batch P → List (Batch P))
    (hf : ∀ b s, (c.ProcessMessage b s).1 = (f b, none)) (working : List (Batch P)) (s : S) :
    ∃ s1, applyStage c working s = ((working.flatMap f, none), s1) := by
  induction working generalizing s with
  | nil => exact ⟨s, rfl⟩
  | cons b bs ih =>
    have hb := hf b s
    rcases hpm : c.ProcessMessage b s with ⟨⟨out, err⟩, s1⟩
    rw [hpm] at hb
    simp only [Prod.mk.injEq] at hb
    obtain ⟨hout, herr⟩ := hb
    subst hout herr
    obtain ⟨s2, hrest⟩ := ih s1
    exact ⟨s2, by simp [applyStage, hpm, hrest]⟩

theorem partsOf_flatMap_of_per_part {P : Type} (f : Batch P → List (Batch P))
    (hparts : ∀ b, partsOf (f b) = b.parts.flatMap (fun x => partsOf (f (single x))))
    (working : List (Batch P)) :
    partsOf (working.flatMap f)
      = (partsOf working).flatMap (fun x => partsOf (f (single x))) := by
  induction working with
  | nil => rfl
  | cons b bs ih =>
    have h1 : partsOf (b :: bs) = b.parts ++ partsOf bs := by simp [partsOf]
    rw [List.flatMap_cons, partsOf_append, ih, hparts b, h1, List.flatMap_append]

theorem runStages_of_functions {S E P : Type} (ch : List (V1 S E P))
    (h : ∀ c ∈ ch, ∃ f : Batch P → List (Batch P),
      (∀ b s, (c.ProcessMessage b s).1 = (f b, none)) ∧
        ∀ b, partsOf (f b) = b.parts.flatMap (fun x => partsOf (f (single x)))) :
    ∃ g : P → List P, ∀ (working : List (Batch P)) (s : S),
      ∃ r s2, runStages ch working s = ((r, none), s2) ∧
        partsOf r = (partsOf working).flatMap g := by
  induction ch with
  | nil =>
    refine ⟨fun x => [x], fun working s => ⟨working, s, rfl, ?_⟩⟩
    simp
  | cons c cs ih =>
    obtain ⟨f, hf, hparts⟩ := h c (List.mem_cons_self c cs)
    obtain ⟨g, hg⟩ := ih (fun d hd => h d (List.mem_cons_of_mem _ hd))
    refine ⟨fun x => (partsOf (f (single x))).flatMap g, fun working s => ?_⟩
    obtain ⟨s1, happ⟩ := applyStage_of_function c f hf working s
    obtain ⟨r, s2, hrun, hr⟩ := hg (working.flatMap f) s1
    refine ⟨r, s2, by simp [runStages, happ, hrun], ?_⟩
    rw [hr, partsOf_flatMap_of_per_part f hparts, List.flatMap_assoc]

theorem function_of_perPart_stateFree {S E P : Type} (c : V1 S E P) (s0 : S)
    (hpart : PerPart c) (hfree : StateFree c) :
    ∃ f : Batch P → List (Batch P),
      (∀ b s, (c.ProcessMessage b s).1 = (f b, none)) ∧
        ∀ b, partsOf (f b) = b.parts.flatMap (fun x => partsOf (f (single x))) := by
  refine ⟨fun b => (c.ProcessMessage b s0).1.1, ?_, fun b => (hpart b s0).2⟩
  intro b s
  rw [hfree b s s0]
  exact Prod.ext rfl (hpart b s0).1

theorem flatMap_singleton_map {α β : Type} (f : α → β) (l : List α) :
    l.flatMap (fun x => [f x]) = l.map f := by
  induction l with
  | nil => rfl
  | cons x xs ih => simp [ih]

/-! ## Concatenation and nesting -/

theorem waitEvents_all_waited {S E P : Type} (now : S → Int) (deadline : Int)
    (cs : List (V1 S E P)) (k : Nat) (s : S) :
    ∀ ev ∈ waitEvents now deadline k cs s, ∃ j t clock, ev = CloseEvent.waited j t clock := by
  induction cs generalizing k s with
  | nil => simp [waitEvents]
  | cons c cs ih =>
    intro ev hev
    simp only [waitEvents, List.mem_cons] at hev
    rcases hev with hev | hev
    · exact ⟨_, _, _, hev⟩
    · rcases hw : c.WaitForClose (Until deadline (now s)) s with ⟨err, s1⟩
      rw [hw] at hev
      cases err with
      | some e => simp at hev
      | none => exact ih (k + 1) s1 ev hev

theorem itemRuns_append {S E P : Type} (exec : Executor S E P) (ch : List (V1 S E P))
    {a b : List P} {s s1 s2 : S} {rs1 rs2 : List (List (Batch P))}
    (ha : ItemRuns exec ch a s rs1 s1) (hb : ItemRuns exec ch b s1 rs2 s2) :
    ItemRuns exec ch (a ++ b) s (rs1 ++ rs2) s2 := by
  induction ha with
  | nil s => exact hb
  | cons hx _ ih => exact ItemRuns.cons hx (ih hb)

theorem firstFailure_append {S E P : Type} (exec : Executor S E P) (ch : List (V1 S E P))
    {a : List P} (b : List P) {s s2 : S} {e : E} (h : FirstFailure exec ch a s e s2) :
    FirstFailure exec ch (a ++ b) s e s2 := by
  obtain ⟨pre, x, post, rs, s1, dropped, ha, hruns, hx⟩ := h
  exact ⟨pre, x, post ++ b, rs, s1, dropped, by simp [ha], hruns, hx⟩

theorem itemRuns_state_of_stateless {S E P : Type} (exec : Executor S E P)
    (ch : List (V1 S E P)) (hpure : ∀ b s, (exec ch b s).2 = s)
    {items : List P} {s s1 : S} {rs : List (List (Batch P))}
    (h : ItemRuns exec ch items s rs s1) : s1 = s := by
  induction h with
  | nil s => rfl
  | @cons x xs s0 s1 s2 r rs hx _ ih =>
    have h1 := hpure (single x) s0
    rw [hx] at h1
    rw [ih]
    exact h1

theorem executeAll_stateless {S E P : Type} (ch : List (V1 S E P))
    (h : ∀ c ∈ ch, ∀ b s, (c.ProcessMessage b s).2 = s) (b : Batch P) (s : S) :
    (ExecuteAll ch b s).2 = s :=
  runStages_keeps ch id h [b] s

theorem processBatchVia_error_inv {S E P : Type} (exec : Executor S E P)
    (p : forEachProc S E P) (msg : Batch P) {s s2 : S} {out : List (Batch P)} {e : E}
    (h : p.ProcessBatchVia exec msg s = some ((out, some e), s2)) :
    out = [] ∧ FirstFailure exec p.children msg.parts s e s2 := by
  rcases itemRuns_or_firstFailure exec p.children msg.parts s with ⟨rs, s3, hr⟩ | ⟨e1, s3, hf⟩
  · have h2 := processBatchVia_of_itemRuns exec p msg hr
    rw [h, finish_eq] at h2
    simp at h2
  · have h2 := processBatchVia_of_firstFailure exec p msg hf
    rw [h] at h2
    simp only [Option.some.injEq, Prod.mk.injEq] at h2
    obtain ⟨⟨ho, he⟩, hs⟩ := h2
    subst ho he hs
    exact ⟨rfl, hf⟩

theorem asChild_on_item_ok {S E P : Type} (ch : List (V1 S E P)) (closeAsync : S → S)
    (waitForClose : Int → S → Option E × S) {x : P} {s s1 : S} {r : List (Batch P)}
    (hx : ExecuteAll ch (single x) s = ((r, none), s1)) :
    ∃ out, ExecuteAll [(⟨ch⟩ : forEachProc S E P).asChild closeAsync waitForClose]
        (single x) s = ((out, none), s1) ∧ partsOf out = partsOf r := by
  have hruns : ItemRuns ExecuteAll (⟨ch⟩ : forEachProc S E P).children (single x).parts s [r] s1 :=
    ItemRuns.cons hx (ItemRuns.nil s1)
  have hpb := processBatchVia_of_itemRuns ExecuteAll (⟨ch⟩ : forEachProc S E P) (single x) hruns
  have hpm : ((⟨ch⟩ : forEachProc S E P).asChild closeAsync waitForClose).ProcessMessage
      (single x) s = finish ⟨partsOf [r].flatten⟩ s1 := by
    simp only [forEachProc.asChild, forEachProc.ProcessBatch, hpb]
  refine ⟨(finish ⟨partsOf [r].flatten⟩ s1 : Ret E P × S).1.1, ?_, ?_⟩
  · rw [executeAll_one_stage, hpm, finish_eq]
  · rw [partsOf_finish]
    simp

theorem asChild_on_item_err {S E P : Type} (ch : List (V1 S E P)) (closeAsync : S → S)
    (waitForClose : Int → S → Option E × S) {x : P} {s s1 : S} {dropped : List (Batch P)}
    {e : E} (hx : ExecuteAll ch (single x) s = ((dropped, some e), s1)) :
    ExecuteAll [(⟨ch⟩ : forEachProc S E P).asChild closeAsync waitForClose] (single x) s
      = (([], some e), s1) := by
  have hf : FirstFailure ExecuteAll (⟨ch⟩ : forEachProc S E P).children (single x).parts s e s1 :=
    ⟨[], x, [], [], s, dropped, rfl, ItemRuns.nil s, hx⟩
  have hpb := processBatchVia_of_firstFailure ExecuteAll (⟨ch⟩ : forEachProc S E P)
    (single x) hf
  have hpm : ((⟨ch⟩ : forEachProc S E P).asChild closeAsync waitForClose).ProcessMessage
      (single x) s = (([], some e), s1) := by
    simp only [forEachProc.asChild, forEachProc.ProcessBatch, hpb]
  rw [executeAll_one_stage, hpm]

theorem itemRuns_asChild {S E P : Type} (ch : List (V1 S E P)) (closeAsync : S → S)
    (waitForClose : Int → S → Option E × S) {items : List P} {s s1 : S}
    {rs : List (List (Batch P))} (h : ItemRuns ExecuteAll ch items s rs s1) :
    ∃ rs2, ItemRuns ExecuteAll [(⟨ch⟩ : forEachProc S E P).asChild closeAsync waitForClose]
        items s rs2 s1 ∧ partsOf rs2.flatten = partsOf rs.flatten := by
  induction h with
  | nil s => exact ⟨[], ItemRuns.nil s, rfl⟩
  | cons hx _ ih =>
    obtain ⟨out, hout, hparts⟩ := asChild_on_item_ok ch closeAsync waitForClose hx
    obtain ⟨rs2, hruns, hrs⟩ := ih
    exact ⟨out :: rs2, ItemRuns.cons hout hruns, by simp [partsOf_append, hparts, hrs]⟩

/-! ## The claims -/

/-- C1: when the chain returns no error on the singleton batch of any item
(`ItemRuns`, with `rs` the result batches of the items), `ProcessBatch` returns
without error, and the parts it returns are the parts of the result batches of
the first item, then those of the second item, and so on, each item's batches
in order and each batch's parts in order. It holds for every executor, so for
`ExecuteAll`. -/
theorem processBatch_parts_are_item_results {S E P : Type} (exec : Executor S E P)
    (p : forEachProc S E P) (msg : Batch P) (s s1 : S) (rs : List (List (Batch P)))
    (h : ItemRuns exec p.children msg.parts s rs s1) :
    ∃ out, p.ProcessBatchVia exec msg s = some ((out, none), s1) ∧
      partsOf out = (rs.map partsOf).flatten := by
  refine ⟨(finish ⟨partsOf rs.flatten⟩ s1 : Ret E P × S).1.1, ?_, ?_⟩
  · rw [processBatchVia_of_itemRuns exec p msg h]
    exact congrArg some (finish_eq _ s1)
  · rw [partsOf_finish, partsOf_flatten]

/-- Witness of C1: the chain `[exDup]` on the batch `["a", "b"]`. -/
theorem processBatch_parts_are_item_results_witness :
    ItemRuns ExecuteAll [exDup] ["a", "b"] 0
        [[⟨["a"]⟩, ⟨["a"]⟩], [⟨["b"]⟩, ⟨["b"]⟩]] 2 ∧
      ∃ out, (⟨[exDup]⟩ : forEachProc Nat String String).ProcessBatchVia ExecuteAll
          ⟨["a", "b"]⟩ 0 = some ((out, none), 2) ∧
        partsOf out = ([[⟨["a"]⟩, ⟨["a"]⟩], [⟨["b"]⟩, ⟨["b"]⟩]].map partsOf).flatten :=
  ⟨ItemRuns.cons rfl (ItemRuns.cons rfl (ItemRuns.nil 2)),
   processBatch_parts_are_item_results ExecuteAll ⟨[exDup]⟩ ⟨["a", "b"]⟩ 0 2 _
     (ItemRuns.cons rfl (ItemRuns.cons rfl (ItemRuns.nil 2)))⟩

/-- C2: `ProcessBatch` returns the error `e` in state `s2` exactly when some
item is the first on which the chain returns an error, that error is `e` and
`s2` is the state the failing run leaves; no batch comes with the error,
whatever the earlier items produced. It holds for every executor, so for
`ExecuteAll`. -/
theorem processBatch_error_iff_first_failure {S E P : Type} (exec : Executor S E P)
    (p : forEachProc S E P) (msg : Batch P) (s s2 : S) (out : List (Batch P)) (e : E) :
    p.ProcessBatchVia exec msg s = some ((out, some e), s2) ↔
      out = [] ∧ FirstFailure exec p.children msg.parts s e s2 := by
  constructor
  · intro h
    rcases itemRuns_or_firstFailure exec p.children msg.parts s with ⟨rs, s3, hr⟩ | ⟨e1, s3, hf⟩
    · have h2 := processBatchVia_of_itemRuns exec p msg hr
      rw [h, finish_eq] at h2
      simp at h2
    · have h2 := processBatchVia_of_firstFailure exec p msg hf
      rw [h] at h2
      simp only [Option.some.injEq, Prod.mk.injEq] at h2
      obtain ⟨⟨ho, he⟩, hs⟩ := h2
      subst ho he hs
      exact ⟨rfl, hf⟩
  · rintro ⟨ho, hf⟩
    subst ho
    exact processBatchVia_of_firstFailure exec p msg hf

/-- Witness of C2: the only child fails on `"p2"`, the second of three parts. -/
theorem processBatch_error_iff_first_failure_witness :
    (⟨[exFailOn "p2"]⟩ : forEachProc Nat String String).ProcessBatchVia ExecuteAll
        ⟨["p1", "p2", "p3"]⟩ 0 = some (([], some "boom"), 2) ∧
      (([] : List (Batch String)) = [] ∧
        FirstFailure ExecuteAll [exFailOn "p2"] ["p1", "p2", "p3"] 0 "boom" 2) :=
  ⟨rfl, (processBatch_error_iff_first_failure ExecuteAll ⟨[exFailOn "p2"]⟩
    ⟨["p1", "p2", "p3"]⟩ 0 2 [] "boom").mp rfl⟩

/-- C3: when `ProcessBatch` returns without error, what it returns is either
nothing (`[]`) or one batch with at least one part; it is nothing exactly when
the result batches of all the items hold zero parts in total. It holds for
every executor, so for `ExecuteAll`. -/
theorem processBatch_success_shape {S E P : Type} (exec : Executor S E P)
    (p : forEachProc S E P) (msg : Batch P) (s s1 : S) (out : List (Batch P))
    (h : p.ProcessBatchVia exec msg s = some ((out, none), s1)) :
    (out = [] ∨ ∃ b, out = [b] ∧ 0 < b.Len) ∧
      ∃ rs, ItemRuns exec p.children msg.parts s rs s1 ∧
        (out = [] ↔ (rs.flatten.map Batch.Len).sum = 0) := by
  obtain ⟨rs, hr, heq⟩ := processBatchVia_success_inv exec p msg h
  have hlen := length_partsOf rs.flatten
  unfold finish at heq
  by_cases hz : (partsOf rs.flatten).length = 0
  · have ho : out = [] := by simpa [Batch.Len, hz] using heq
    refine ⟨Or.inl ho, rs, hr, ?_⟩
    rw [← hlen]
    exact ⟨fun _ => hz, fun _ => ho⟩
  · have ho : out = [⟨partsOf rs.flatten⟩] := by simpa [Batch.Len, hz] using heq
    refine ⟨Or.inr ⟨_, ho, ?_⟩, rs, hr, ?_⟩
    · exact Nat.pos_of_ne_zero hz
    · rw [← hlen, ho]
      exact ⟨fun hc => by simp at hc, fun hc => absurd hc hz⟩

/-- Witness of C3: every part of a non-empty batch is dropped, through
explicit empty batches, and nothing is returned. -/
theorem processBatch_success_shape_witness :
    (⟨[exDropEmpty]⟩ : forEachProc Nat String String).ProcessBatchVia ExecuteAll
        ⟨["", ""]⟩ 0 = some (([], none), 2) ∧
      ((([] : List (Batch String)) = [] ∨ ∃ b, ([] : List (Batch String)) = [b] ∧ 0 < b.Len) ∧
        ∃ rs, ItemRuns ExecuteAll [exDropEmpty] ["", ""] 0 rs 2 ∧
          (([] : List (Batch String)) = [] ↔ (rs.flatten.map Batch.Len).sum = 0)) :=
  ⟨rfl, processBatch_success_shape ExecuteAll ⟨[exDropEmpty]⟩ ⟨["", ""]⟩ 0 2 [] rfl⟩

/-- Counterexample to C4 as stated: with no children and the batch without
parts, `ProcessBatch` returns nothing, not a batch. -/
theorem processBatch_identity_fails_on_empty_batch :
    (⟨[]⟩ : forEachProc Unit String String).ProcessBatch ⟨[]⟩ () = some (([], none), ()) ∧
      ¬ ∃ b s1, (⟨[]⟩ : forEachProc Unit String String).ProcessBatch ⟨[]⟩ ()
          = some (([b], none), s1) := by
  refine ⟨rfl, ?_⟩
  rintro ⟨b, s1, h⟩
  have h2 : (some (([], none), ()) : Option (Ret String String × Unit))
      = some (([b], none), s1) := h
  simp at h2

/-- C4, amended: with no children, `ProcessBatch` returns without error and
leaves the state alone; on a batch `B` with at least one part it returns the
one batch `B`, and on the batch without parts it returns nothing. -/
theorem processBatch_empty_chain_identity {S E P : Type} (B : Batch P) (s : S) :
    (⟨[]⟩ : forEachProc S E P).ProcessBatch B s
      = some ((if B.Len = 0 then [] else [B], none), s) := by
  have hr := itemRuns_empty_chain (E := E) B.parts s
  have h := processBatchVia_of_itemRuns ExecuteAll (⟨[]⟩ : forEachProc S E P) B hr
  unfold forEachProc.ProcessBatch
  rw [h, partsOf_flatten_singles]
  unfold finish
  by_cases hz : B.Len = 0
  · simp [hz]
  · simp [hz]

/-- C5: on the batch without parts `ProcessBatch` returns nothing and no
error, and the state is the one it started from: the executor is not called,
whatever it is and whatever the children are. -/
theorem processBatch_empty_batch {S E P : Type} (exec : Executor S E P)
    (p : forEachProc S E P) (s : S) :
    p.ProcessBatchVia exec ⟨[]⟩ s = some (([], none), s) ∧
      p.ProcessBatch ⟨[]⟩ s = some (([], none), s) := by
  constructor
  · show forEachLoop exec p (individualMsgs ⟨[]⟩) QuickBatch s = some (([], none), s)
    rw [individualMsgs_eq_map]
    rfl
  · show forEachLoop ExecuteAll p (individualMsgs ⟨[]⟩) QuickBatch s = some (([], none), s)
    rw [individualMsgs_eq_map]
    rfl

/-- C6: `individualMsgs` holds, for each part of the batch in order, the batch
of that part alone, with no slot left nil; its length is the number of parts,
and it is empty for the batch without parts. -/
theorem individualMsgs_singletons {P : Type} (msg : Batch P) :
    individualMsgs msg = msg.parts.map (fun x => some ⟨[x]⟩) ∧
      (individualMsgs msg).length = msg.Len ∧
      individualMsgs (⟨[]⟩ : Batch P) = [] := by
  refine ⟨individualMsgs_eq_map msg, ?_, rfl⟩
  rw [individualMsgs_eq_map]
  simp [Batch.Len]

/-- C7: let `log` be any record of calls kept in the state, to which the first
child `c` adds each batch it is handed and which the other children leave
alone. After `ProcessBatch` the record has grown by the singleton batches of
the input parts, in input order: of all parts when no error is returned, and
of the parts up to and including the first item on which the chain fails
otherwise. Hence, for a chain of one child, a child `c2` that agrees with `c`
on every batch of one part gives the same result of `ProcessBatch` on every
batch. -/
theorem processBatch_first_child_sees_singletons {S E P : Type} (c : V1 S E P) :
    (∀ (rest : List (V1 S E P)) (log : S → List (Batch P)),
      (∀ b s, log (c.ProcessMessage b s).2 = log s ++ [b]) →
      (∀ d ∈ rest, ∀ b s, log (d.ProcessMessage b s).2 = log s) →
      ∀ (msg : Batch P) (s : S),
        (∃ out s1, (⟨c :: rest⟩ : forEachProc S E P).ProcessBatch msg s
              = some ((out, none), s1) ∧
            log s1 = log s ++ msg.parts.map single) ∨
        (∃ e s2 pre x post rs s1 dropped, msg.parts = pre ++ x :: post ∧
            ItemRuns ExecuteAll (c :: rest) pre s rs s1 ∧
            ExecuteAll (c :: rest) (single x) s1 = ((dropped, some e), s2) ∧
            (⟨c :: rest⟩ : forEachProc S E P).ProcessBatch msg s
              = some (([], some e), s2) ∧
            log s2 = log s ++ (pre ++ [x]).map single)) ∧
    (∀ c2 : V1 S E P,
      (∀ x s, c.ProcessMessage (single x) s = c2.ProcessMessage (single x) s) →
      ∀ (msg : Batch P) (s : S),
        (⟨[c]⟩ : forEachProc S E P).ProcessBatch msg s
          = (⟨[c2]⟩ : forEachProc S E P).ProcessBatch msg s) := by
  constructor
  · intro rest log hc hrest msg s
    have hexec := executeAll_records_first c rest log hc hrest
    rcases itemRuns_or_firstFailure ExecuteAll (c :: rest) msg.parts s with
      ⟨rs, s1, hr⟩ | ⟨e, s2, pre, x, post, rs, s1, dropped, hparts, hr, hx⟩
    · left
      refine ⟨(finish ⟨partsOf rs.flatten⟩ s1 : Ret E P × S).1.1, s1, ?_,
        itemRuns_records ExecuteAll (c :: rest) log hexec hr⟩
      unfold forEachProc.ProcessBatch
      rw [processBatchVia_of_itemRuns ExecuteAll ⟨c :: rest⟩ msg hr]
      exact congrArg some (finish_eq _ s1)
    · right
      refine ⟨e, s2, pre, x, post, rs, s1, dropped, hparts, hr, hx, ?_, ?_⟩
      · exact processBatchVia_of_firstFailure ExecuteAll ⟨c :: rest⟩ msg
          ⟨pre, x, post, rs, s1, dropped, hparts, hr, hx⟩
      · have h1 := hexec (single x) s1
        rw [hx] at h1
        rw [h1, itemRuns_records ExecuteAll (c :: rest) log hexec hr]
        simp
  · intro c2 hagree msg s
    unfold forEachProc.ProcessBatch forEachProc.ProcessBatchVia
    rw [individualMsgs_eq_map]
    apply forEachLoop_congr
    intro x s0
    show ExecuteAll [c] (single x) s0 = ExecuteAll [c2] (single x) s0
    rw [executeAll_one_stage, executeAll_one_stage, hagree x s0]

/-- Witness of C7: the child `exRecord`, whose state is the record itself, on
the batch `["a", "b"]`; `exRecordOne` agrees with it on batches of one part and
fails on all others. -/
theorem processBatch_first_child_sees_singletons_witness :
    ((∃ out s1, (⟨[exRecord]⟩ : forEachProc (List (Batch String)) String String).ProcessBatch
            ⟨["a", "b"]⟩ [] = some ((out, none), s1) ∧
          id s1 = id [] ++ ["a", "b"].map single) ∨
      (∃ e s2 pre x post rs s1 dropped, ["a", "b"] = pre ++ x :: post ∧
          ItemRuns ExecuteAll [exRecord] pre [] rs s1 ∧
          ExecuteAll [exRecord] (single x) s1 = ((dropped, some e), s2) ∧
          (⟨[exRecord]⟩ : forEachProc (List (Batch String)) String String).ProcessBatch
            ⟨["a", "b"]⟩ [] = some (([], some e), s2) ∧
          id s2 = id [] ++ (pre ++ [x]).map single)) ∧
    (⟨[exRecord]⟩ : forEachProc (List (Batch String)) String String).ProcessBatch
        ⟨["a", "b"]⟩ []
      = (⟨[exRecordOne]⟩ : forEachProc (List (Batch String)) String String).ProcessBatch
        ⟨["a", "b"]⟩ [] :=
  ⟨(processBatch_first_child_sees_singletons exRecord).1 [] id (fun _ _ => rfl)
      (fun _ hd => absurd hd (List.not_mem_nil _)) ⟨["a", "b"]⟩ [],
    (processBatch_first_child_sees_singletons exRecord).2 exRecordOne (fun _ _ => rfl)
      ⟨["a", "b"]⟩ []⟩

/-- C8: let the only child turn the batch of one part `x` into batches whose
parts are `x, x`, without error. On a batch `[p1, ..., pn]` with at least one
part `ProcessBatch` returns the one batch `[p1, p1, ..., pn, pn]`. -/
theorem processBatch_fan_out_order {S E P : Type} (d : V1 S E P)
    (hd : ∀ x s, ∃ r s1, d.ProcessMessage (single x) s = ((r, none), s1) ∧ partsOf r = [x, x])
    (msg : Batch P) (hne : msg.parts ≠ []) (s : S) :
    ∃ s1, (⟨[d]⟩ : forEachProc S E P).ProcessBatch msg s
      = some (([⟨msg.parts.flatMap (fun x => [x, x])⟩], none), s1) := by
  obtain ⟨rs, s1, hruns, hrs⟩ := itemRuns_of_per_part d (fun x => [x, x]) hd msg.parts s
  refine ⟨s1, ?_⟩
  unfold forEachProc.ProcessBatch
  rw [processBatchVia_of_itemRuns ExecuteAll ⟨[d]⟩ msg hruns, hrs, finish_nonempty]
  cases hparts : msg.parts with
  | nil => exact absurd hparts hne
  | cons x xs => simp

/-- Witness of C8: `exDup` turns `[p1, p2]` into `[p1, p1, p2, p2]`. -/
theorem processBatch_fan_out_order_witness :
    ∃ s1, (⟨[exDup]⟩ : forEachProc Nat String String).ProcessBatch ⟨["p1", "p2"]⟩ 0
      = some (([⟨["p1", "p2"].flatMap (fun x => [x, x])⟩], none), s1) ∧
      ["p1", "p2"].flatMap (fun x => [x, x]) = ["p1", "p1", "p2", "p2"] :=
  (processBatch_fan_out_order exDup (fun x s => ⟨[single x, single x], s + 1, rfl, rfl⟩)
    ⟨["p1", "p2"]⟩ (List.cons_ne_nil _ _) 0).imp (fun _ h => ⟨h, rfl⟩)

/-- C9: let the only child turn the batch of one part `x` into batches whose
parts are `x` alone when `keep x` holds and none otherwise, without error.
`ProcessBatch` returns the one batch of the input parts that satisfy `keep`,
in their input order, and returns nothing when no part satisfies it. -/
theorem processBatch_filter {S E P : Type} (d : V1 S E P) (keep : P → Bool)
    (hd : ∀ x s, ∃ r s1, d.ProcessMessage (single x) s = ((r, none), s1) ∧
      partsOf r = if keep x then [x] else [])
    (msg : Batch P) (s : S) :
    ∃ s1, (⟨[d]⟩ : forEachProc S E P).ProcessBatch msg s
      = some ((if (msg.parts.filter keep).length = 0 then []
          else [⟨msg.parts.filter keep⟩], none), s1) := by
  obtain ⟨rs, s1, hruns, hrs⟩ :=
    itemRuns_of_per_part d (fun x => if keep x then [x] else []) hd msg.parts s
  refine ⟨s1, ?_⟩
  unfold forEachProc.ProcessBatch
  rw [processBatchVia_of_itemRuns ExecuteAll ⟨[d]⟩ msg hruns, hrs, flatMap_keep_eq_filter]
  by_cases hz : msg.parts.filter keep = []
  · simp [hz, finish, Batch.Len]
  · rw [finish_nonempty _ _ hz]
    have hl : (msg.parts.filter keep).length ≠ 0 := fun h => hz (List.length_eq_zero.mp h)
    simp [hl]

/-- Witness of C9: `exDropEmpty` turns `["", "x"]` into `["x"]`. -/
theorem processBatch_filter_witness :
    ∃ s1, (⟨[exDropEmpty]⟩ : forEachProc Nat String String).ProcessBatch ⟨["", "x"]⟩ 0
      = some ((if (["", "x"].filter (fun x => x != "")).length = 0 then []
          else [⟨["", "x"].filter (fun x => x != "")⟩], none), s1) ∧
      ["", "x"].filter (fun x => x != "") = ["x"] :=
  (processBatch_filter exDropEmpty (fun x => x != "")
    (fun x s => ⟨[⟨[x].filter (fun x => x != "")⟩], s + 1, rfl, by
      cases h : (x != "") <;> simp [partsOf, List.filter, h]⟩)
    ⟨["", "x"]⟩ 0).imp (fun _ h => ⟨h, by decide⟩)

/-- C10: `newForEach` asks the manager for the entries in order, each under
the path `for_each`, index. Either every entry is built, and it returns the
`forEachProc` whose children are the built children in the order of the
entries, and no error; or there is a first entry, of index `i`, that fails with
an error `e`, and it returns no `forEachProc` and the error whose message is
`child processor [i]: ` followed by the message of `e` and which wraps `e`.
The world it leaves is the one after the last entry, or after the failing
entry: any record of the calls holds the entries up to there and no later
one. -/
theorem newForEach_builds_in_order {W Conf S E P : Type} (conf : List Conf)
    (mgr : NewManagement W Conf E (V1 S E P)) (errText : E → String) (w : W) :
    (∃ procs w1, Builds mgr 0 conf w procs w1 ∧ procs.length = conf.length ∧
        newForEach conf mgr errText w = ((some ⟨procs⟩, none), w1) ∧
        ∀ log, Records mgr log → log w1 = log w ++ callsFrom 0 conf) ∨
    (∃ pre c post procs w1 e w2, conf = pre ++ c :: post ∧ Builds mgr 0 pre w procs w1 ∧
        mgr ["for_each", Itoa pre.length] c w1 = (Except.error e, w2) ∧
        newForEach conf mgr errText w
          = ((none, some ⟨"child processor [" ++ Itoa pre.length ++ "]: " ++ errText e, e⟩),
              w2) ∧
        ∀ log, Records mgr log → log w2 = log w ++ callsFrom 0 (pre ++ [c])) := by
  rcases newForEachLoop_cases mgr errText conf 0 [] w with
    ⟨vs, w1, hb, hlen, hloop, hlogs⟩ | ⟨pre, c, post, vs, w1, e, w2, hconf, hb, hc, hloop, hlogs⟩
  · exact Or.inl ⟨vs, w1, hb, hlen, by simpa [newForEach] using hloop, hlogs⟩
  · rw [Nat.zero_add] at hc hloop
    exact Or.inr ⟨pre, c, post, vs, w1, e, w2, hconf, hb, hc, hloop, hlogs⟩

/-- Witness of C10: the entries `"a", "bad", "c"` with the manager `exMgr`,
whose world is the record of the calls. The second entry fails; the error
names the index 1 and the third entry is not asked for. -/
theorem newForEach_builds_in_order_witness :
    Records exMgr id ∧
      newForEach ["a", "bad", "c"] exMgr id []
        = ((none, some ⟨"child processor [1]: unknown", "unknown"⟩),
            [(["for_each", "0"], "a"), (["for_each", "1"], "bad")]) ∧
      ((∃ procs w1, Builds exMgr 0 ["a", "bad", "c"] [] procs w1 ∧
          procs.length = ["a", "bad", "c"].length ∧
          newForEach ["a", "bad", "c"] exMgr id [] = ((some ⟨procs⟩, none), w1) ∧
          ∀ log, Records exMgr log → log w1 = log [] ++ callsFrom 0 ["a", "bad", "c"]) ∨
        (∃ pre c post procs w1 e w2, ["a", "bad", "c"] = pre ++ c :: post ∧
          Builds exMgr 0 pre [] procs w1 ∧
          exMgr ["for_each", Itoa pre.length] c w1 = (Except.error e, w2) ∧
          newForEach ["a", "bad", "c"] exMgr id []
            = ((none, some ⟨"child processor [" ++ Itoa pre.length ++ "]: " ++ id e, e⟩),
                w2) ∧
          ∀ log, Records exMgr log → log w2 = log [] ++ callsFrom 0 (pre ++ [c]))) :=
  ⟨fun _ _ _ => rfl, rfl, newForEach_builds_in_order ["a", "bad", "c"] exMgr id []⟩

/-- C11: after signalling, `Close` waits on the children in chain order, each
with the time left until the deadline. Either every wait returns no error, and
`Close` returns nil after having waited on all the children; or there is a
first child whose wait returns an error `e`, and `Close` returns `e` itself in
the state that wait leaves, having waited on the children up to that one and
on no later one. So `Close` returns nil exactly when the wait on every child
returns no error. -/
theorem close_stops_at_first_error {S E P : Type} (p : forEachProc S E P) (now : S → Int)
    (ctx : Option Int) (s : S) :
    ((∃ s2, WaitsOk now (ctx.getD (now (closeAsyncAll p.children s) + Second * 5))
            p.children (closeAsyncAll p.children s) s2 ∧
          p.Close now ctx s = (none, s2) ∧
          waitedChildren (closeTrace p now ctx s) = List.range p.children.length) ∨
      (∃ pre c post s1 e s2, p.children = pre ++ c :: post ∧
          WaitsOk now (ctx.getD (now (closeAsyncAll p.children s) + Second * 5))
            pre (closeAsyncAll p.children s) s1 ∧
          c.WaitForClose
              (Until (ctx.getD (now (closeAsyncAll p.children s) + Second * 5)) (now s1)) s1
            = (some e, s2) ∧
          p.Close now ctx s = (some e, s2) ∧
          waitedChildren (closeTrace p now ctx s) = List.range (pre.length + 1))) ∧
    ((p.Close now ctx s).1 = none ↔
      ∃ s2, WaitsOk now (ctx.getD (now (closeAsyncAll p.children s) + Second * 5))
        p.children (closeAsyncAll p.children s) s2) := by
  have hD : resolveDeadline ctx (now (closeAsyncAll p.children s))
      = ctx.getD (now (closeAsyncAll p.children s) + Second * 5) := by
    cases ctx <;> rfl
  have htrace := closeTrace_eq p now ctx s
  rw [hD] at htrace
  have hclose : p.Close now ctx s
      = waitAll now (ctx.getD (now (closeAsyncAll p.children s) + Second * 5)) p.children
          (closeAsyncAll p.children s) := by
    simp only [forEachProc.Close, hD]
  have hcases := waitAll_cases now (ctx.getD (now (closeAsyncAll p.children s) + Second * 5))
    p.children 0 (closeAsyncAll p.children s)
  constructor
  · rcases hcases with ⟨s2, hok, hall, hev⟩ | ⟨pre, c, post, s1, e, s2, hcs, hok, hc, hall, hev⟩
    · refine Or.inl ⟨s2, hok, hclose.trans hall, ?_⟩
      rw [htrace, waitedChildren_append, waitedChildren_signalled, hev]
      simp [List.range_eq_range']
    · refine Or.inr ⟨pre, c, post, s1, e, s2, hcs, hok, hc, hclose.trans hall, ?_⟩
      rw [htrace, waitedChildren_append, waitedChildren_signalled, hev]
      simp [List.range_eq_range']
  · constructor
    · intro hnone
      rcases hcases with ⟨s2, hok, _, _⟩ | ⟨pre, c, post, s1, e, s2, _, _, _, hall, _⟩
      · exact ⟨s2, hok⟩
      · rw [hclose, hall] at hnone
        simp at hnone
    · rintro ⟨s2, hok⟩
      rw [hclose, waitAll_of_waitsOk now _ hok]

/-- Witness of C11: the second of three children never closes; `Close`
returns its error and does not wait on the third. -/
theorem close_stops_at_first_error_witness :
    (⟨[exOneSecond, exStuck, exClosed]⟩ : forEachProc Int String String).Close id none 0
        = (some "timeout", 5000000000) ∧
      waitedChildren (closeTrace (⟨[exOneSecond, exStuck, exClosed]⟩ :
        forEachProc Int String String) id none 0) = [0, 1] ∧
      ((⟨[exOneSecond, exStuck, exClosed]⟩ : forEachProc Int String String).Close id none 0).1
        ≠ none ∧
      ¬ ∃ s2, WaitsOk id ((none : Option Int).getD
          (id (closeAsyncAll ([exOneSecond, exStuck, exClosed] : List (V1 Int String String)) 0)
            + Second * 5))
        ([exOneSecond, exStuck, exClosed] : List (V1 Int String String))
        (closeAsyncAll ([exOneSecond, exStuck, exClosed] : List (V1 Int String String)) 0) s2 :=
  ⟨by decide, by decide, by decide,
    fun h => absurd ((close_stops_at_first_error
      (⟨[exOneSecond, exStuck, exClosed]⟩ : forEachProc Int String String) id none 0).2.mpr h)
      (by decide)⟩

/-- Counterexample to C12 as stated: with a deadline more than `maxDuration`
ahead (here ten thousand million seconds, some 317 years, with the clock at 0)
the child is handed the largest duration, not the deadline minus the clock. -/
theorem close_timeout_is_capped :
    closeTrace (⟨[exClosed]⟩ : forEachProc Int String String) id
        (some 10000000000000000000) 0
      = [CloseEvent.signalled 0, CloseEvent.waited 0 9223372036854775807 0] ∧
    (9223372036854775807 : Int) ≠ 10000000000000000000 - 0 :=
  ⟨by decide, by decide⟩

/-- C12, amended: one deadline is fixed per call of `Close`, the deadline of
the context when it has one and otherwise the reading of the clock after the
children were signalled plus five seconds. Each child waited on is handed
`Sub deadline clock`, with `clock` the reading at the start of its wait: the
deadline minus the clock when that fits in a `time.Duration`, and the largest
or smallest duration otherwise. When no wait sets the clock back, the
timeouts do not increase along the chain. -/
theorem close_timeouts_against_one_deadline {S E P : Type} (p : forEachProc S E P)
    (now : S → Int) (ctx : Option Int) (s : S) :
    (∀ k t clock, CloseEvent.waited k t clock ∈ closeTrace p now ctx s →
      t = Sub (ctx.getD (now (closeAsyncAll p.children s) + Second * 5)) clock ∧
      (minDuration ≤ ctx.getD (now (closeAsyncAll p.children s) + Second * 5) - clock →
        ctx.getD (now (closeAsyncAll p.children s) + Second * 5) - clock ≤ maxDuration →
        t = ctx.getD (now (closeAsyncAll p.children s) + Second * 5) - clock)) ∧
    ((∀ c ∈ p.children, ∀ t s, now s ≤ now (c.WaitForClose t s).2) →
      List.Pairwise (fun a b => b ≤ a) (timeoutsOf (closeTrace p now ctx s))) := by
  have hD : resolveDeadline ctx (now (closeAsyncAll p.children s))
      = ctx.getD (now (closeAsyncAll p.children s) + Second * 5) := by
    cases ctx <;> rfl
  constructor
  · intro k t clock hmem
    have h1 := waited_mem_waitEvents now _ p.children 0 _ k t clock
      (waited_mem_closeTrace p now ctx s k t clock hmem)
    rw [hD] at h1
    exact ⟨h1, fun hlo hhi => h1.trans (Sub_in_range _ _ hlo hhi)⟩
  · intro hmono
    rw [closeTrace_eq, timeoutsOf_append, timeoutsOf_signalled, List.nil_append]
    exact timeoutsOf_waitEvents_pairwise now _ p.children hmono 0 _

/-- Witness of C12: no deadline in the context, the clock at 0; the first
child takes one second to close and the second never closes. The timeouts are
five seconds, then four. -/
theorem close_timeouts_against_one_deadline_witness :
    timeoutsOf (closeTrace (⟨[exOneSecond, exStuck, exClosed]⟩ :
        forEachProc Int String String) id none 0) = [5000000000, 4000000000] ∧
      (4000000000 : Int) = (none : Option Int).getD
          (id (closeAsyncAll ([exOneSecond, exStuck, exClosed] : List (V1 Int String String)) 0)
            + Second * 5) - 1000000000 ∧
      List.Pairwise (fun a b => b ≤ a)
        (timeoutsOf (closeTrace (⟨[exOneSecond, exStuck, exClosed]⟩ :
          forEachProc Int String String) id none 0)) :=
  ⟨by decide,
    ((close_timeouts_against_one_deadline
      (⟨[exOneSecond, exStuck, exClosed]⟩ : forEachProc Int String String) id none 0).1
        1 4000000000 1000000000 (by decide)).2 (by decide) (by decide),
    (close_timeouts_against_one_deadline
      (⟨[exOneSecond, exStuck, exClosed]⟩ : forEachProc Int String String) id none 0).2
        (by
          intro c hc t s
          simp only [List.mem_cons, List.mem_singleton, List.not_mem_nil, or_false] at hc
          rcases hc with rfl | rfl | rfl
          · show s ≤ s + Second
            unfold Second; omega
          · show s ≤ s + max t 0
            have := le_max_right t 0
            omega
          · exact le_refl s)⟩

/-- Counterexample to C13 as stated. The chain `[exLate, exStuck]` holds a
child that never closes and whose wait with timeout `t` returns a timeout
error within `t`, yet `Close`, called at 0 without a deadline, returns the
error `"busy"` of the first child, which is no timeout error, at ten seconds.
And on the chain `[exSlowSignal]`, whose only child never closes, `Close`
returns six seconds after it was called, since the five seconds are counted
from the end of the `CloseAsync` calls. -/
theorem close_default_deadline_can_be_missed :
    (exStuck ∈ ([exLate, exStuck] : List (V1 Int String String)) ∧
      (∀ t s, exStuck.WaitForClose t s = (some "timeout", s + max t 0)) ∧
      (⟨[exLate, exStuck]⟩ : forEachProc Int String String).Close id none 0
        = (some "busy", 10000000000) ∧
      "busy" ≠ "timeout" ∧ ¬ ((10000000000 : Int) ≤ 0 + Second * 5)) ∧
    ((∀ t s, exSlowSignal.WaitForClose t s = (some "timeout", s + max t 0)) ∧
      (⟨[exSlowSignal]⟩ : forEachProc Int String String).Close id none 0
        = (some "timeout", 6000000000) ∧
      ¬ ((6000000000 : Int) ≤ 0 + Second * 5)) :=
  ⟨⟨List.mem_cons_of_mem _ (List.mem_cons_self _ _), fun _ _ => rfl, by decide, by decide,
      by decide⟩,
    ⟨fun _ _ => rfl, by decide, by decide⟩⟩

/-- C13, amended: let the context have no deadline, let the chain hold a
child whose wait always returns an error, let the wait of every child with
timeout `t` last at most `t` (no time when `t` is negative), and let every
error a wait returns be a timeout error. Then `Close` returns a timeout error,
and the clock then shows at most five seconds more than when the deadline was
fixed, that is after `CloseAsync` had returned on every child. -/
theorem close_default_deadline_bound {S E P : Type} (p : forEachProc S E P)
    (now : S → Int) (s : S) (isTimeout : E → Prop) (stuck : V1 S E P)
    (hmem : stuck ∈ p.children)
    (hstuck : ∀ t s, ∃ e, (stuck.WaitForClose t s).1 = some e)
    (hwithin : ∀ c ∈ p.children, ∀ t s, now (c.WaitForClose t s).2 ≤ now s + max t 0)
    (hkind : ∀ c ∈ p.children, ∀ t s e, (c.WaitForClose t s).1 = some e → isTimeout e) :
    ∃ e s2, p.Close now none s = (some e, s2) ∧ isTimeout e ∧
      now s2 ≤ now (closeAsyncAll p.children s) + Second * 5 := by
  have hle : now (closeAsyncAll p.children s)
      ≤ resolveDeadline none (now (closeAsyncAll p.children s)) := by
    show _ ≤ now (closeAsyncAll p.children s) + Second * 5
    unfold Second
    omega
  obtain ⟨e, he⟩ := waitAll_fails_of_stuck now
    (resolveDeadline none (now (closeAsyncAll p.children s))) p.children stuck hmem hstuck
    (closeAsyncAll p.children s)
  refine ⟨e, (p.Close now none s).2, ?_, ?_, ?_⟩
  · exact Prod.ext he rfl
  · exact waitAll_error_kind now _ p.children isTimeout hkind _ e he
  · exact waitAll_within now _ p.children hwithin _ hle

/-- Witness of C13: a child that is closed at once, then one that never
closes; `Close`, called at 0, returns the timeout error at five seconds. -/
theorem close_default_deadline_bound_witness :
    (⟨[exClosed, exStuck]⟩ : forEachProc Int String String).Close id none 0
        = (some "timeout", 5000000000) ∧
      ∃ e s2, (⟨[exClosed, exStuck]⟩ : forEachProc Int String String).Close id none 0
          = (some e, s2) ∧ e = "timeout" ∧
        id s2 ≤ id (closeAsyncAll ([exClosed, exStuck] : List (V1 Int String String)) 0)
          + Second * 5 :=
  ⟨by decide,
    close_default_deadline_bound (⟨[exClosed, exStuck]⟩ : forEachProc Int String String)
      id 0 (fun e => e = "timeout") exStuck (by simp)
      (fun _ _ => ⟨"timeout", rfl⟩)
      (by
        intro c hc t s
        simp only [List.mem_cons, List.mem_singleton, List.not_mem_nil, or_false] at hc
        rcases hc with rfl | rfl
        · show s ≤ s + max t 0
          have := le_max_right t 0
          omega
        · exact le_refl _)
      (by
        intro c hc t s e he
        simp only [List.mem_cons, List.mem_singleton, List.not_mem_nil, or_false] at hc
        rcases hc with rfl | rfl
        · simp [exClosed] at he
        · simpa [exStuck] using he.symm)⟩

/-- Counterexample to C14 as stated: the child `exCall` never returns an
error and, in every state, returns on a batch the parts it returns on each
part alone. On the batch `["a", "b"]` from state 0, `ProcessBatch` returns the
parts `a0, b1`, and the chain run on the whole batch returns `a0, b0`. -/
theorem processBatch_differs_for_stateful_child :
    (∀ c ∈ ([exCall] : List (V1 Nat String String)), PerPart c) ∧
      (⟨[exCall]⟩ : forEachProc Nat String String).ProcessBatch ⟨["a", "b"]⟩ 0
        = some (([⟨["a0", "b1"]⟩], none), 2) ∧
      ExecuteAll [exCall] ⟨["a", "b"]⟩ 0 = (([⟨["a0", "b0"]⟩], none), 1) ∧
      partsOf ([⟨["a0", "b1"]⟩] : List (Batch String)) ≠ partsOf [⟨["a0", "b0"]⟩] := by
  refine ⟨?_, by decide, by decide, by decide⟩
  intro c hc
  rw [List.mem_singleton] at hc
  subst hc
  intro b s
  refine ⟨rfl, ?_⟩
  show partsOf [⟨b.parts.map (fun x => x ++ toString s)⟩]
    = b.parts.flatMap (fun x => partsOf [⟨[x].map (fun x => x ++ toString s)⟩])
  simp [partsOf, flatMap_singleton_map]

/-- C14, amended: when every child of the chain is per-part (`PerPart`: no
error, and in every state its parts on a batch are its parts on each part
alone) and what it returns does not depend on the state (`StateFree`), then on
every batch both `ProcessBatch` and the chain run on the whole batch return
without error, and the parts `ProcessBatch` returns are the parts of the
batches the chain returns on the whole batch, in the same order. -/
theorem processBatch_redundant_for_per_message {S E P : Type} (p : forEachProc S E P)
    (h : ∀ c ∈ p.children, PerPart c ∧ StateFree c) (msg : Batch P) (s : S) :
    ∃ out s1 r s2, p.ProcessBatch msg s = some ((out, none), s1) ∧
      ExecuteAll p.children msg s = ((r, none), s2) ∧ partsOf out = partsOf r := by
  obtain ⟨g, hg⟩ := runStages_of_functions p.children
    (fun c hc => function_of_perPart_stateFree c s (h c hc).1 (h c hc).2)
  obtain ⟨r, s2, hrun, hr⟩ := hg [msg] s
  have hitem : ∀ x s, ∃ r s1, ExecuteAll p.children (single x) s = ((r, none), s1) ∧
      partsOf r = g x := by
    intro x s0
    obtain ⟨r0, s1, hrun0, hr0⟩ := hg [single x] s0
    exact ⟨r0, s1, hrun0, by simpa [partsOf, single] using hr0⟩
  obtain ⟨rs, s1, hruns, hrs⟩ := itemRuns_of_exec_parts ExecuteAll p.children g hitem msg.parts s
  refine ⟨(finish ⟨partsOf rs.flatten⟩ s1 : Ret E P × S).1.1, s1, r, s2, ?_, hrun, ?_⟩
  · unfold forEachProc.ProcessBatch
    rw [processBatchVia_of_itemRuns ExecuteAll p msg hruns]
    exact congrArg some (finish_eq _ s1)
  · rw [partsOf_finish, hrs, hr]
    simp [partsOf]

/-- Witness of C14: the chain `[exTwice, exNonEmpty]` on the batch
`["a", "", "b"]`; both ways give the parts `a, a, b, b`. -/
theorem processBatch_redundant_for_per_message_witness :
    (⟨[exTwice, exNonEmpty]⟩ : forEachProc Unit String String).ProcessBatch
        ⟨["a", "", "b"]⟩ () = some (([⟨["a", "a", "b", "b"]⟩], none), ()) ∧
      ∃ out s1 r s2, (⟨[exTwice, exNonEmpty]⟩ : forEachProc Unit String String).ProcessBatch
          ⟨["a", "", "b"]⟩ () = some ((out, none), s1) ∧
        ExecuteAll [exTwice, exNonEmpty] ⟨["a", "", "b"]⟩ () = ((r, none), s2) ∧
        partsOf out = partsOf r :=
  ⟨by decide,
    processBatch_redundant_for_per_message ⟨[exTwice, exNonEmpty]⟩
      (by
        intro c hc
        simp only [List.mem_cons, List.mem_singleton, List.not_mem_nil, or_false] at hc
        rcases hc with rfl | rfl
        · refine ⟨fun b s => ⟨rfl, ?_⟩, fun _ _ _ => rfl⟩
          show partsOf [⟨b.parts.flatMap (fun x => [x, x])⟩]
            = b.parts.flatMap (fun x => partsOf [⟨[x].flatMap (fun x => [x, x])⟩])
          simp [partsOf]
        · refine ⟨fun b s => ⟨rfl, ?_⟩, fun _ _ _ => rfl⟩
          show partsOf [⟨b.parts.filter (fun x => x != "")⟩]
            = b.parts.flatMap (fun x => partsOf [⟨[x].filter (fun x => x != "")⟩])
          simp only [partsOf, List.map_cons, List.map_nil, List.flatten_cons,
            List.flatten_nil, List.append_nil]
          rw [← flatMap_keep_eq_filter (fun x : String => x != "") b.parts]
          congr 1
          funext x
          cases hx : (x != "") <;> simp [List.filter, hx])
      ⟨["a", "", "b"]⟩ ()⟩

/-- C15: the close events of a run of `Close` are `CloseAsync` on child 0, on
child 1, and so on up to the last child of the chain, once each, and only then
waits. This holds whatever `Close` returns, so every child has been signalled
when it returns, the children it did not wait on included. The children that
write the events down return and leave the state as the children themselves
do. -/
theorem close_signals_every_child_first {S E P : Type} (p : forEachProc S E P)
    (now : S → Int) (ctx : Option Int) (s : S) :
    (∃ ws, closeTrace p now ctx s
          = (List.range p.children.length).map CloseEvent.signalled ++ ws ∧
        ∀ ev ∈ ws, ∃ k t clock, ev = CloseEvent.waited k t clock) ∧
      ((⟨tracedFrom now 0 p.children⟩ : forEachProc (S × List CloseEvent) E P).Close
          (fun st => now st.1) ctx (s, [])).1 = (p.Close now ctx s).1 ∧
      ((⟨tracedFrom now 0 p.children⟩ : forEachProc (S × List CloseEvent) E P).Close
          (fun st => now st.1) ctx (s, [])).2.1 = (p.Close now ctx s).2 := by
  refine ⟨⟨_, closeTrace_eq p now ctx s, waitEvents_all_waited now _ p.children 0 _⟩, ?_, ?_⟩
  · rw [close_traced]
  · rw [close_traced]

/-- C16: let the executor leave the state alone on the chain of `p`, as
`ExecuteAll` does when every child does. When `ProcessBatch` returns without
error on `A` and on `B`, it returns without error on `A` followed by `B`, and
the parts it returns are those returned for `A` followed by those returned for
`B`. When it returns an error on `A`, it returns the same error on `A`
followed by `B`. -/
theorem processBatch_concat {S E P : Type} (exec : Executor S E P) (p : forEachProc S E P)
    (hpure : ∀ b s, (exec p.children b s).2 = s) (A B : Batch P) (s : S) :
    (∀ oA sA oB sB, p.ProcessBatchVia exec A s = some ((oA, none), sA) →
      p.ProcessBatchVia exec B s = some ((oB, none), sB) →
      ∃ o, p.ProcessBatchVia exec ⟨A.parts ++ B.parts⟩ s = some ((o, none), s) ∧
        partsOf o = partsOf oA ++ partsOf oB) ∧
    (∀ oA e sA, p.ProcessBatchVia exec A s = some ((oA, some e), sA) →
      p.ProcessBatchVia exec ⟨A.parts ++ B.parts⟩ s = some (([], some e), sA)) := by
  constructor
  · intro oA sA oB sB hA hB
    obtain ⟨rsA, hrA, heqA⟩ := processBatchVia_success_inv exec p A hA
    obtain ⟨rsB, hrB, heqB⟩ := processBatchVia_success_inv exec p B hB
    have hsA : sA = s := itemRuns_state_of_stateless exec p.children hpure hrA
    have hsB : sB = s := itemRuns_state_of_stateless exec p.children hpure hrB
    rw [hsA] at hrA heqA
    rw [hsB] at hrB heqB
    have hAB : ItemRuns exec p.children (⟨A.parts ++ B.parts⟩ : Batch P).parts s
        (rsA ++ rsB) s := itemRuns_append exec p.children hrA hrB
    have hpA : partsOf oA = partsOf rsA.flatten := by
      have := congrArg (fun r : Ret E P × S => partsOf r.1.1) heqA
      simpa [partsOf_finish] using this
    have hpB : partsOf oB = partsOf rsB.flatten := by
      have := congrArg (fun r : Ret E P × S => partsOf r.1.1) heqB
      simpa [partsOf_finish] using this
    refine ⟨(finish ⟨partsOf (rsA ++ rsB).flatten⟩ s : Ret E P × S).1.1, ?_, ?_⟩
    · rw [processBatchVia_of_itemRuns exec p _ hAB]
      exact congrArg some (finish_eq _ s)
    · rw [partsOf_finish, hpA, hpB, List.flatten_append, partsOf_append]
  · intro oA e sA hA
    obtain ⟨_, hf⟩ := processBatchVia_error_inv exec p A hA
    exact processBatchVia_of_firstFailure exec p ⟨A.parts ++ B.parts⟩
      (firstFailure_append exec p.children B.parts hf)

/-- Witness of C16: `exTwice` on `["a"]` and `["b"]`, and `exPureFailOn "bad"`
on `["x", "bad"]` followed by `["y"]`. -/
theorem processBatch_concat_witness :
    (∃ o, (⟨[exTwice]⟩ : forEachProc Unit String String).ProcessBatchVia ExecuteAll
          ⟨["a"] ++ ["b"]⟩ () = some ((o, none), ()) ∧
        partsOf o = partsOf [⟨["a", "a"]⟩] ++ partsOf [⟨["b", "b"]⟩]) ∧
      (⟨[exPureFailOn "bad"]⟩ : forEachProc Unit String String).ProcessBatchVia ExecuteAll
          ⟨["x", "bad"] ++ ["y"]⟩ () = some (([], some "boom"), ()) :=
  ⟨(processBatch_concat ExecuteAll (⟨[exTwice]⟩ : forEachProc Unit String String)
      (executeAll_stateless [exTwice] (fun _ _ _ _ => rfl)) ⟨["a"]⟩ ⟨["b"]⟩ ()).1
        [⟨["a", "a"]⟩] () [⟨["b", "b"]⟩] () (by decide) (by decide),
    (processBatch_concat ExecuteAll (⟨[exPureFailOn "bad"]⟩ : forEachProc Unit String String)
      (executeAll_stateless [exPureFailOn "bad"] (fun _ _ _ _ => rfl))
      ⟨["x", "bad"]⟩ ⟨["y"]⟩ ()).2 [] "boom" () (by decide)⟩

/-- C17: a `forEachProc` whose only child is a `forEachProc` over the chain
`ch` returns on every batch what a `forEachProc` over `ch` returns: the same
batch or nothing, the same error, and the same state. -/
theorem processBatch_nesting_collapses {S E P : Type} (ch : List (V1 S E P))
    (closeAsync : S → S) (waitForClose : Int → S → Option E × S) (msg : Batch P) (s : S) :
    (⟨[(⟨ch⟩ : forEachProc S E P).asChild closeAsync waitForClose]⟩ :
        forEachProc S E P).ProcessBatch msg s
      = (⟨ch⟩ : forEachProc S E P).ProcessBatch msg s := by
  unfold forEachProc.ProcessBatch
  rcases itemRuns_or_firstFailure ExecuteAll ch msg.parts s with
    ⟨rs, s1, hr⟩ | ⟨e, s2, pre, x, post, rs, s1, dropped, hparts, hr, hx⟩
  · obtain ⟨rs2, hr2, hparts⟩ := itemRuns_asChild ch closeAsync waitForClose hr
    rw [processBatchVia_of_itemRuns ExecuteAll
        (⟨[(⟨ch⟩ : forEachProc S E P).asChild closeAsync waitForClose]⟩ : forEachProc S E P)
        msg hr2,
      processBatchVia_of_itemRuns ExecuteAll (⟨ch⟩ : forEachProc S E P) msg hr, hparts]
  · obtain ⟨rs2, hr2, _⟩ := itemRuns_asChild ch closeAsync waitForClose hr
    have hx2 := asChild_on_item_err ch closeAsync waitForClose hx
    rw [processBatchVia_of_firstFailure ExecuteAll
        (⟨[(⟨ch⟩ : forEachProc S E P).asChild closeAsync waitForClose]⟩ : forEachProc S E P)
        msg ⟨pre, x, post, rs2, s1, [], hparts, hr2, hx2⟩,
      processBatchVia_of_firstFailure ExecuteAll (⟨ch⟩ : forEachProc S E P) msg
        ⟨pre, x, post, rs, s1, dropped, hparts, hr, hx⟩]

end ForEach
